import Mathlib

/-!
Verification of the dependency-resolution / caching / markdown-rewriting core of
the puml2md tool (src/index.js), as a shallow embedding over `List Char`.

Text is modelled as `List Char`; JavaScript strings, regular expressions and the
in-memory `Map`-based render cache are translated function by function from the
source.  The external collaborators (plantuml encoder, URL shortener, the remote
render service, the real filesystem) are modelled as explicit parameters, as the
specification declares them out of scope.
-/

namespace Puml

/-- Text, modelled as a list of characters. -/
abbrev Str := List Char

/-! ## Small list helpers -/

/-- `l` is a prefix of `l ++ r` (boolean form used by the scanners). -/
theorem isPrefixOf_append (l r : Str) : l.isPrefixOf (l ++ r) = true := by
  simp [List.isPrefixOf_iff_prefix]

/-- If every element of `xs` satisfies `p`, `takeWhile p` walks through `xs`. -/
theorem takeWhile_append_all {p : Char → Bool} {xs : Str} (ys : Str)
    (h : ∀ c ∈ xs, p c = true) :
    (xs ++ ys).takeWhile p = xs ++ ys.takeWhile p := by
  induction xs with
  | nil => rfl
  | cons c t ih =>
    have hc : p c = true := h c (by simp)
    simp [List.takeWhile_cons, hc, ih (fun d hd => h d (by simp [hd]))]

/-- If every element of `xs` satisfies `p`, `dropWhile p` walks through `xs`. -/
theorem dropWhile_append_all {p : Char → Bool} {xs : Str} (ys : Str)
    (h : ∀ c ∈ xs, p c = true) :
    (xs ++ ys).dropWhile p = ys.dropWhile p := by
  induction xs with
  | nil => rfl
  | cons c t ih =>
    have hc : p c = true := h c (by simp)
    simp [List.dropWhile_cons, hc, ih (fun d hd => h d (by simp [hd]))]

/-! ## Path model (node `path.dirname` / `path.resolve` on absolute POSIX paths) -/

/-- Split a string on a separator character. -/
def splitSep (sep : Char) : Str → List Str
  | [] => [[]]
  | c :: t =>
    if c = sep then [] :: splitSep sep t
    else
      match splitSep sep t with
      | [] => [[c]]
      | h :: r => (c :: h) :: r

/-- Normalise path segments: drop empty and `.` segments, let `..` pop. -/
def normSegs : List Str → List Str → List Str
  | acc, [] => acc.reverse
  | acc, s :: rest =>
    if s = [] ∨ s = ['.'] then normSegs acc rest
    else if s = ['.', '.'] then normSegs (acc.drop 1) rest
    else normSegs (s :: acc) rest

/-- Reassemble an absolute path from its segments. -/
def joinAbs : List Str → Str
  | [] => ['/']
  | segs => segs.foldl (fun acc s => acc ++ '/' :: s) []

/-- Node `path.dirname` on an absolute path: all segments but the last. -/
def dirnameP (p : Str) : Str :=
  joinAbs (normSegs [] (splitSep '/' p)).dropLast

/-- Node `path.resolve base rel` for an absolute `base`. -/
def resolveP (base rel : Str) : Str :=
  let full := if rel.head? = some '/' then rel else base ++ '/' :: rel
  joinAbs (normSegs [] (splitSep '/' full))

/-! ## `String.prototype.replaceAll` with a literal (non-empty) search string -/

/-- One scan of `replaceAll`: leftmost, non-overlapping.  The searched-for
strings produced by the program (`$link=...` markers) are never empty; for an
empty pattern the definition conservatively returns the input. -/
def replaceAll (s pat repl : Str) : Str :=
  match pat with
  | [] => s
  | p :: ps =>
    match s with
    | [] => []
    | c :: t =>
      if (p :: ps).isPrefixOf (c :: t) then
        repl ++ replaceAll ((c :: t).drop (p :: ps).length) (p :: ps) repl
      else c :: replaceAll t (p :: ps) repl
  termination_by s.length
  decreasing_by
  · simp only [List.length_drop, List.length_cons]
    omega
  · simp

/-! ## Include Expander (`processIncludes` in src/index.js)

`data.replace(/!include (.*)/g, (fullMatch, url) => ...)`: each occurrence of
`!include ` followed by the rest of the line is replaced by the contents of the
referenced file when it exists (resolved against the including file's
directory), otherwise the directive is kept verbatim.  `String.replace` never
rescans the text it has substituted in. -/

/-- The literal matched by `/!include (.*)/`: `!include` plus one space. -/
def incLit : Str := "!include ".toList

/-- The scan underlying `processIncludes`.  `fsys` models
`fs.existsSync` + `fs.readFileSync` (`none` = not on disk). -/
def scanIncl (fsys : Str → Option Str) (dir : Str) : Str → Str
  | [] => []
  | c :: t =>
    if incLit.isPrefixOf (c :: t) then
      (match fsys (resolveP dir (((c :: t).drop 9).takeWhile (fun d => d ≠ '\n'))) with
       | some content => content
       | none => incLit ++ ((c :: t).drop 9).takeWhile (fun d => d ≠ '\n')) ++
        scanIncl fsys dir (((c :: t).drop 9).dropWhile (fun d => d ≠ '\n'))
    else c :: scanIncl fsys dir t
  termination_by s => s.length
  decreasing_by
  · have hle : (((c :: t).drop 9).dropWhile (fun d => d ≠ '\n')).length ≤
        ((c :: t).drop 9).length :=
      List.IsSuffix.length_le (List.dropWhile_suffix _)
    have hdl : ((c :: t).drop 9).length = (c :: t).length - 9 := by simp
    rw [hdl] at hle
    exact Nat.lt_of_le_of_lt hle (Nat.sub_lt (by simp) (by norm_num))
  · simp

/-- `processIncludes(pumlPath, data)` from src/index.js. -/
def processIncludes (fsys : Str → Option Str) (pumlPath data : Str) : Str :=
  scanIncl fsys (dirnameP pumlPath) data

/-- Helper: the include scanner passes text without `!` through unchanged. -/
theorem scanIncl_append_no_bang (fsys : Str → Option Str) (dir : Str)
    {pre : Str} (s : Str) (h : ∀ c ∈ pre, c ≠ '!') :
    scanIncl fsys dir (pre ++ s) = pre ++ scanIncl fsys dir s := by
  induction pre with
  | nil => rfl
  | cons c t ih =>
    have hc : c ≠ '!' := h c (by simp)
    have hnp : incLit.isPrefixOf (c :: (t ++ s)) = false := by
      simp only [incLit]
      simp only [List.isPrefixOf]
      simp [hc]
      exact fun hcontra => absurd hcontra.symm hc
    rw [List.cons_append, scanIncl, ih (fun d hd => h d (by simp [hd]))]
    simp [hnp]

/-- A resolved entry, as stored by `PumlLinks.set`. -/
structure Entry where
  encodedData : Str
  url : Str
  data : Str
deriving DecidableEq

/-- One cache slot: `0` (pending) or a resolved entry. -/
inductive CacheV
  | pending
  | done (e : Entry)
deriving DecidableEq

/-- Resolver state: the cache plus the read/render traces. -/
structure RState where
  cache : List (Str × CacheV)
  reads : List Str
  renders : List Str
deriving DecidableEq

/-- Association-list lookup (the `Map.get` of `PumlLinks`). -/
def lookupC : List (Str × CacheV) → Str → Option CacheV
  | [], _ => none
  | (k, v) :: t, q => if k = q then some v else lookupC t q

/-- Association-list update (the `Map.set` of `PumlLinks`). -/
def setC : List (Str × CacheV) → Str → CacheV → List (Str × CacheV)
  | [], q, v => [(q, v)]
  | (k, w) :: t, q, v => if k = q then (q, v) :: t else (k, w) :: setC t q v

/-- External encode / render-URL services (out-of-scope collaborators). -/
structure RenderCfg where
  enc : Str → Str
  mkUrl : Str → Str

/-- The entry built by `PumlLinks.set(pumlPath, v)` for non-numeric `v`. -/
def mkEntry (cfg : RenderCfg) (text : Str) : Entry :=
  { encodedData := cfg.enc text, url := cfg.mkUrl (cfg.enc text), data := text }

/-- `PumlLinks.set` with diagram text: encode, obtain a render URL, store a
resolved entry.  Also records the render request in the trace. -/
def cacheSet (cfg : RenderCfg) (st : RState) (p : Str) (text : Str) : RState :=
  { st with
    cache := setC st.cache p (.done (mkEntry cfg text))
    renders := p :: st.renders }

/-- Result of `processPumlFile`: the path itself (not a registered diagram),
a resolved entry, or fuel exhaustion (unbounded recursion on cyclic inputs). -/
inductive RRet
  | path (p : Str)
  | done (e : Entry)
  | fail
deriving DecidableEq

/-- `newLink.url` in JavaScript: reading `.url` off a plain string (the
not-registered result) or any non-entry yields `undefined`, which the template
literal renders as the text `undefined`. -/
def urlOfR : RRet → Str
  | .done e => e.url
  | _ => "undefined".toList

/-! ### The `$link` marker scan

`/\$link=["']([^"']+)['"]/gm`: the literal `$link=`, one quote (double or
single), one or more non-quote characters (captured), one quote. -/

/-- Is this character one of the two quote characters of the marker regex? -/
def isQuoteC (c : Char) : Bool := c = '"' || c = '\''

/-- The literal part of the `$link` marker regex. -/
def linkLit : Str := "$link=".toList

/-- Try to match the `$link` marker regex at the head of `s`; on success
return (full match, captured path, remainder after the match). -/
def linkMatchAt (s : Str) : Option (Str × Str × Str) :=
  if linkLit.isPrefixOf s then
    match s.drop 6 with
    | [] => none
    | q0 :: t =>
      if isQuoteC q0 then
        match t.takeWhile (fun c => !(isQuoteC c)), t.dropWhile (fun c => !(isQuoteC c)) with
        | [], _ => none
        | _, [] => none
        | i :: inner, q1 :: r =>
          if isQuoteC q1 then
            some (linkLit ++ q0 :: ((i :: inner) ++ [q1]), i :: inner, r)
          else none
      else none
  else none

/-- Remainder returned by a successful marker match is strictly shorter. -/
theorem linkMatchAt_length {s full inner r : Str}
    (h : linkMatchAt s = some (full, inner, r)) : r.length < s.length := by
  unfold linkMatchAt at h
  split at h
  · split at h
    · exact absurd h (by simp)
    · rename_i q0 t hd
      split at h
      · split at h
        · exact absurd h (by simp)
        · exact absurd h (by simp)
        · rename_i i inner' q1 r' htw hdw
          split at h
          · simp only [Option.some.injEq, Prod.mk.injEq] at h
            obtain ⟨-, -, hr⟩ := h
            subst hr
            have hsuf : (q1 :: r').length ≤ t.length := by
              rw [← hdw]
              exact List.IsSuffix.length_le (List.dropWhile_suffix _)
            have h2 : t.length + 1 ≤ s.length := by
              have h3 : (q0 :: t).length ≤ s.length := by
                rw [← hd, List.length_drop]; omega
              simpa using h3
            simp only [List.length_cons] at hsuf
            omega
          · exact absurd h (by simp)
      · exact absurd h (by simp)
  · exact absurd h (by simp)

/-- Collect every `$link` marker in the text, left to right (the `exec` loop of
`mapUniqMatches`): pairs of (full match, captured path). -/
def scanMarkers : Str → List (Str × Str)
  | [] => []
  | c :: t =>
    match hm : linkMatchAt (c :: t) with
    | some (full, inner, r) => (full, inner) :: scanMarkers r
    | none => scanMarkers t
  termination_by s => s.length
  decreasing_by
  · exact linkMatchAt_length hm
  · simp

/-- `_.uniqBy(results, String)`: keep the first occurrence of each full match
(the capture is a function of the full match text). -/
def uniqByFull (l : List (Str × Str)) : List (Str × Str) :=
  l.foldl (fun acc x => if acc.any (fun y => y.1 = x.1) then acc else acc ++ [x]) []

/-- The replacement marker text: `$link="` + url + `"`. -/
def linkRepl (u : Str) : Str := "$link=\"".toList ++ u ++ "\"".toList

/-- `processPumlFile(pumlPath, pumlLinks)` from src/index.js: the recursive
resolver.  Base cases: unregistered path (return the path itself), already
resolved (return the cached entry).  Otherwise read the file, resolve each
unique `$link` target (relative to the file's directory) and substitute every
occurrence of the original marker with one pointing at the child's url, expand
includes, then store and return the resolved entry.  The await of the mapped
resolutions is sequentialised (single-threaded event loop, join barrier before
the parent is finalised). -/
def processPumlFile (cfg : RenderCfg) (fsys : Str → Option Str) :
    Nat → Str → RState → RRet × RState
  | 0, _, st => (.fail, st)
  | fuel + 1, p, st =>
    match lookupC st.cache p with
    | none => (.path p, st)
    | some (.done e) => (.done e, st)
    | some .pending =>
      let data0 := (fsys p).getD []
      let st0 : RState := { st with reads := p :: st.reads }
      let res :=
        (uniqByFull (scanMarkers data0)).foldl
          (fun acc m =>
            let r := processPumlFile cfg fsys fuel (resolveP (dirnameP p) m.2) acc.2
            (replaceAll acc.1 m.1 (linkRepl (urlOfR r.1)), r.2))
          (data0, st0)
      let dataF := processIncludes fsys p res.1
      (.done (mkEntry cfg dataF), cacheSet cfg res.2 p dataF)

/-- One step of the resolver's marker fold (named form, for proofs). -/
def pumlStep (cfg : RenderCfg) (fsys : Str → Option Str) (fuel : Nat)
    (dir : Str) (acc : Str × RState) (m : Str × Str) : Str × RState :=
  let r := processPumlFile cfg fsys fuel (resolveP dir m.2) acc.2
  (replaceAll acc.1 m.1 (linkRepl (urlOfR r.1)), r.2)

/-- The marker-resolution fold of `processPumlFile` (named form, for proofs). -/
def pumlResolveBody (cfg : RenderCfg) (fsys : Str → Option Str) (fuel : Nat)
    (p : Str) (st : RState) : Str × RState :=
  (uniqByFull (scanMarkers ((fsys p).getD []))).foldl
    (pumlStep cfg fsys fuel (dirnameP p))
    (((fsys p).getD []), { st with reads := p :: st.reads })

/-- Unfolding lemma: unregistered path. -/
theorem processPumlFile_none (cfg : RenderCfg) (fsys : Str → Option Str)
    (f : Nat) (p : Str) (st : RState) (h : lookupC st.cache p = none) :
    processPumlFile cfg fsys (f + 1) p st = (.path p, st) := by
  rw [processPumlFile, h]

/-- Unfolding lemma: already resolved path. -/
theorem processPumlFile_done (cfg : RenderCfg) (fsys : Str → Option Str)
    (f : Nat) (p : Str) (st : RState) (e : Entry)
    (h : lookupC st.cache p = some (.done e)) :
    processPumlFile cfg fsys (f + 1) p st = (.done e, st) := by
  rw [processPumlFile, h]

/-- Unfolding lemma: pending path (the resolving branch). -/
theorem processPumlFile_pending (cfg : RenderCfg) (fsys : Str → Option Str)
    (f : Nat) (p : Str) (st : RState) (h : lookupC st.cache p = some .pending) :
    processPumlFile cfg fsys (f + 1) p st =
      (.done (mkEntry cfg (processIncludes fsys p (pumlResolveBody cfg fsys f p st).1)),
       cacheSet cfg (pumlResolveBody cfg fsys f p st).2 p
         (processIncludes fsys p (pumlResolveBody cfg fsys f p st).1)) := by
  rw [processPumlFile, h]
  rfl

/-- Looking up the key just set. -/
theorem lookupC_setC_self (m : List (Str × CacheV)) (p : Str) (v : CacheV) :
    lookupC (setC m p v) p = some v := by
  induction m with
  | nil => simp [setC, lookupC]
  | cons kv t ih =>
    obtain ⟨k, w⟩ := kv
    by_cases hk : k = p
    · simp [setC, hk, lookupC]
    · simp [setC, hk, lookupC, ih]

/-- Updates at a different key do not change a lookup. -/
theorem lookupC_setC_other (m : List (Str × CacheV)) {p q : Str} (v : CacheV)
    (h : q ≠ p) : lookupC (setC m q v) p = lookupC m p := by
  induction m with
  | nil => simp [setC, lookupC, h]
  | cons kv t ih =>
    obtain ⟨k, w⟩ := kv
    by_cases hk : k = q
    · subst hk
      simp [setC, lookupC, h]
    · simp [setC, hk, lookupC, ih]

/-- Invariants on the second component survive a `foldl` whose steps
preserve them. -/
theorem foldl_snd_preserve {A B C : Type} (step : A × B → C → A × B)
    (P : B → Prop) (hstep : ∀ ab c, P ab.2 → P (step ab c).2) :
    ∀ (l : List C) (ab : A × B), P ab.2 → P (l.foldl step ab).2 := by
  intro l
  induction l with
  | nil => intro ab h; simpa using h
  | cons c t ih =>
    intro ab h
    simpa [List.foldl_cons] using ih (step ab c) (hstep ab c h)

/-- A resolved cache entry is preserved by any further resolver activity:
the only cache write in `processPumlFile` happens on a path that was pending
when the call began, so a `done` slot is never overwritten. -/
theorem processPumlFile_preserves_done (cfg : RenderCfg) (fsys : Str → Option Str)
    (p : Str) (e : Entry) :
    ∀ (n : Nat) (q : Str) (st : RState),
      lookupC st.cache p = some (.done e) →
      lookupC (processPumlFile cfg fsys n q st).2.cache p = some (.done e) := by
  intro n
  induction n with
  | zero => intro q st h; simpa [processPumlFile] using h
  | succ m ih =>
    intro q st h
    cases hq : lookupC st.cache q with
    | none => rw [processPumlFile_none cfg fsys m q st hq]; exact h
    | some v =>
      cases v with
      | done e' => rw [processPumlFile_done cfg fsys m q st e' hq]; exact h
      | pending =>
        rw [processPumlFile_pending cfg fsys m q st hq]
        have hqp : q ≠ p := by
          intro hEq
          rw [hEq, h] at hq
          exact absurd hq (by simp)
        have hfold :
            lookupC (pumlResolveBody cfg fsys m q st).2.cache p = some (.done e) := by
          unfold pumlResolveBody
          refine foldl_snd_preserve _
            (fun (b : RState) => lookupC b.cache p = some (.done e))
            (fun ab c hab => ?_) _ _ h
          simp only [pumlStep]
          exact ih (resolveP (dirnameP q) c.2) ab.2 hab
        simp only [cacheSet]
        exact (lookupC_setC_other _ _ hqp).trans hfold

/-- C1 (Reference Resolver memoization): if resolving a registered diagram
path succeeds and yields the entry `e` with final state `st'`, then (1) the
cache now holds `e` at that path; (2) resolving the same path again, with any
amount of fuel, immediately returns the identical entry and leaves the state —
including the file-read and render-request traces — completely unchanged (the
second call is served from the cache without re-reading or re-rendering); and
(3) the slot never reverts: any further resolver call on any path preserves
the resolved entry, so the pending → resolved transition happens exactly once. -/
theorem C1_memoization (cfg : RenderCfg) (fsys : Str → Option Str)
    (f : Nat) (p : Str) (st : RState) (e : Entry) (st' : RState)
    (h : processPumlFile cfg fsys f p st = (.done e, st')) :
    lookupC st'.cache p = some (.done e)
    ∧ (∀ n : Nat, processPumlFile cfg fsys (n + 1) p st' = (.done e, st'))
    ∧ (∀ (n : Nat) (q : Str) (st0 : RState),
        lookupC st0.cache p = some (.done e) →
        lookupC (processPumlFile cfg fsys n q st0).2.cache p = some (.done e)) := by
  have hmem : lookupC st'.cache p = some (.done e) := by
    cases f with
    | zero =>
      rw [processPumlFile] at h
      injection h with h1 h2
      injection h1
    | succ m =>
      cases hq : lookupC st.cache p with
      | none =>
        rw [processPumlFile_none cfg fsys m p st hq] at h
        injection h with h1 h2
        injection h1
      | some v =>
        cases v with
        | done e' =>
          rw [processPumlFile_done cfg fsys m p st e' hq] at h
          injection h with h1 h2
          injection h1 with h1
          subst h1
          subst h2
          exact hq
        | pending =>
          rw [processPumlFile_pending cfg fsys m p st hq] at h
          injection h with h1 h2
          injection h1 with h1
          subst h1
          subst h2
          simp [cacheSet, lookupC_setC_self]
  refine ⟨hmem, fun n => ?_, fun n q st0 h0 =>
    processPumlFile_preserves_done cfg fsys p e n q st0 h0⟩
  exact processPumlFile_done cfg fsys n p st' e hmem

/-- C8 (unregistered path): the Resolver returns the path itself, untouched
state, no error, for any path absent from the cache. -/
theorem C8_unregistered (cfg : RenderCfg) (fsys : Str → Option Str)
    (f : Nat) (p : Str) (st : RState)
    (h : lookupC st.cache p = none) :
    processPumlFile cfg fsys (f + 1) p st = (.path p, st) :=
  processPumlFile_none cfg fsys f p st h

/-- C9 (dangling `$link` target): when a diagram file's single unique
reference marker names a path that is not registered in the cache, the
recursive call returns a plain path string; reading `.url` off it gives
`undefined`, so every occurrence of the original marker in the parent's text
is replaced by the literal `$link="undefined"` — the marker is not preserved
as a usable external link.  The resolved entry's stored text witnesses this. -/
theorem C9_unregistered_link_target (cfg : RenderCfg) (fsys : Str → Option Str)
    (f : Nat) (p : Str) (st : RState) (data0 full lpath : Str)
    (hp : lookupC st.cache p = some .pending)
    (hd : fsys p = some data0)
    (hm : uniqByFull (scanMarkers data0) = [(full, lpath)])
    (hchild : lookupC st.cache (resolveP (dirnameP p) lpath) = none) :
    (processPumlFile cfg fsys (f + 2) p st).1 =
      .done (mkEntry cfg (processIncludes fsys p
        (replaceAll data0 full (linkRepl ("undefined".toList))))) := by
  rw [show f + 2 = (f + 1) + 1 from rfl,
    processPumlFile_pending cfg fsys (f + 1) p st hp]
  have hbody : pumlResolveBody cfg fsys (f + 1) p st =
      (replaceAll data0 full (linkRepl ("undefined".toList)),
       { st with reads := p :: st.reads }) := by
    unfold pumlResolveBody
    rw [hd]
    simp only [Option.getD_some]
    rw [hm]
    simp only [List.foldl_cons, List.foldl_nil, pumlStep]
    rw [processPumlFile_none cfg fsys f (resolveP (dirnameP p) lpath)
      { st with reads := p :: st.reads } hchild]
    rfl
  rw [hbody]

/-! ## Artifact download (`downloadImg` in src/index.js)

The remote GET is modelled by `resp : Except RemoteErr Str` (success body or a
thrown error carrying `statusCode`, `message` and a readable error body — the
`e.text()` of bent's `StatusError`).  The function returns the possibly-updated
filesystem (the `fs.writeFileSync`) — or the propagated error — together with
the list of console messages it printed, in order. -/

/-- The error thrown by a failed remote image request. -/
structure RemoteErr where
  statusCode : Nat
  message : Str
  body : Str
deriving DecidableEq

/-- `console.warn` text of the non-400 failure branch. -/
def warnMsg (serverUrl imgUrl outputPath : Str) : Str :=
  "WARN: Failed to save ".toList ++ serverUrl ++ imgUrl ++ " to ".toList ++
    outputPath ++ "\n".toList

/-- `console.log` text of the non-400 failure branch. -/
def errLogMsg (m : Str) : Str := "Error: ".toList ++ m

/-- `console.error` text of the post-write existence check. -/
def errSaveMsg (p : Str) : Str := "Diagram could not be saved to ".toList ++ p

/-- second `console.log` text of the post-write existence check. -/
def bufMsg (b : Str) : Str := "Buffered data: ".toList ++ b

/-- `downloadImg(serverUrl, imgUrl, outputPath)` from src/index.js.  On a
successful response the body is written; on a thrown error with status ≠ 400 a
warning and the error message are logged and the error is rethrown; on status
400 the error's own body is captured and written with no logging.  After a
write, a missing output file is logged (diagnostic only). -/
def downloadImg (serverUrl imgUrl outputPath : Str)
    (resp : Except RemoteErr Str) (fsys : Str → Option Str) :
    Except RemoteErr (Str → Option Str) × List Str :=
  match resp with
  | .ok body =>
    let fs1 := fun q => if q = outputPath then some body else fsys q
    (.ok fs1,
     if (fs1 outputPath).isSome then [] else [errSaveMsg outputPath, bufMsg body])
  | .error e =>
    if e.statusCode ≠ 400 then
      (.error e, [warnMsg serverUrl imgUrl outputPath, errLogMsg e.message])
    else
      let fs1 := fun q => if q = outputPath then some e.body else fsys q
      (.ok fs1,
       if (fs1 outputPath).isSome then [] else [errSaveMsg outputPath, bufMsg e.body])

/-- C5 amended: a status-400 remote failure is non-fatal — the error response
body is captured and written and processing continues, but no warning is
logged; for every other failure the warning and error message are logged and
the error propagates (fatal). -/
theorem C5_amended_bad_request (serverUrl imgUrl outputPath : Str)
    (e : RemoteErr) (fsys : Str → Option Str) :
    (e.statusCode = 400 →
      downloadImg serverUrl imgUrl outputPath (.error e) fsys =
        (.ok (fun q => if q = outputPath then some e.body else fsys q), []))
    ∧ (e.statusCode ≠ 400 →
      downloadImg serverUrl imgUrl outputPath (.error e) fsys =
        (.error e, [warnMsg serverUrl imgUrl outputPath, errLogMsg e.message])) := by
  constructor
  · intro h400
    simp [downloadImg, h400]
  · intro hne
    simp [downloadImg, hne]

/-- C5 counterexample: at a concrete status-400 failure the log trace is empty
— the code writes the error body and continues but logs no warning (the
warning is printed only in the fatal, non-400 branch), contradicting the
claim that for the bad-request class "a warning is logged". -/
theorem C5_counterexample :
    (downloadImg ("http://srv".toList) ("/svg/abc".toList) ("/out/a.svg".toList)
        (.error { statusCode := 400, message := "Bad Request".toList,
                  body := "no content".toList }) (fun _ => none)).2 = []
    ∧ (downloadImg ("http://srv".toList) ("/svg/abc".toList) ("/out/a.svg".toList)
        (.error { statusCode := 400, message := "Bad Request".toList,
                  body := "no content".toList }) (fun _ => none)).1
        ≠ .error { statusCode := 400, message := "Bad Request".toList,
                   body := "no content".toList } := by
  constructor
  · simp [downloadImg]
  · simp [downloadImg]

/-! ## Document Rewriter (`processMdFile` in src/index.js)

The directive regex is

  `((\[.*\]\([^)]+\)|<img\s+.*\/>)*)?<!--(!?\[[^\]]+\])\(([^)]+\.puml)\)-->`

It is embedded as a backtracking matcher over `List Char`, mirroring the
JavaScript engine's preference order: the leading group greedily consumes
repetitions of a markdown link (`A = \[.*\]\([^)]+\)`) or an inline img tag
(`B = <img\s+.*\/>`), backtracking as needed, before the fixed comment-encoded
core.  Captures 3 (link text) and 4 (diagram path) are returned; capture 1 —
the previously emitted visible content — is discarded by the replacement. -/

/-- Strip a literal from the head of a string. -/
def stripL (lit s : Str) : Option Str :=
  if lit.isPrefixOf s then some (s.drop lit.length) else none

/-- `.puml`, the required extension of the path capture. -/
def pumlSuffix : Str := ".puml".toList

/-- The bracketed part of the directive core, after the optional `!`:
`\[[^\]]+\]\(([^)]+\.puml)\)-->`.  Returns (`[`inner`]`, path capture, rest). -/
def matchCoreTail (s2 : Str) : Option (Str × Str × Str) :=
  match s2 with
  | '[' :: t =>
    match t.takeWhile (fun c => c ≠ ']'), t.dropWhile (fun c => c ≠ ']') with
    | i :: inner, ']' :: u =>
      match u with
      | '(' :: v =>
        match v.takeWhile (fun c => c ≠ ')'), v.dropWhile (fun c => c ≠ ')') with
        | c0 :: chunk0, ')' :: w =>
          if 6 ≤ (c0 :: chunk0).length ∧
              (c0 :: chunk0).drop ((c0 :: chunk0).length - 5) = pumlSuffix then
            match stripL ("-->".toList) w with
            | some rest => some ('[' :: ((i :: inner) ++ [']']), c0 :: chunk0, rest)
            | none => none
          else none
        | _, _ => none
      | _ => none
    | _, _ => none
  | _ => none

/-- The deterministic core of the directive regex:
`<!--(!?\[[^\]]+\])\(([^)]+\.puml)\)-->`.  Returns (link text, path, rest). -/
def matchCore (s : Str) : Option (Str × Str × Str) :=
  match stripL ("<!--".toList) s with
  | none => none
  | some s1 =>
    if s1.head? = some '!' then
      match matchCoreTail (s1.drop 1) with
      | some (body, chunk, rest) => some ('!' :: body, chunk, rest)
      | none => none
    else matchCoreTail s1

/-- The character class of `.` in a JavaScript regex without the dotAll flag:
any character except the four line terminators `\n`, `\r`, U+2028, U+2029. -/
def jsDot (c : Char) : Bool :=
  !(c = '\n' || c = '\r' || c = '\u2028' || c = '\u2029')

/-- Greedy `.*` (any characters but a line terminator) in continuation-passing
style: try the longest consumption first, then backtrack one character at a
time. -/
def gTail (cc : Str → Option (Str × Str × Str)) : Str → Option (Str × Str × Str)
  | [] => cc []
  | c :: t =>
    if jsDot c then
      match gTail cc t with
      | some v => some v
      | none => cc (c :: t)
    else cc (c :: t)

/-- The closing part `\]\([^)]+\)` of alternative A, then the continuation. -/
def aClose (k : Str → Option (Str × Str × Str)) (s : Str) :
    Option (Str × Str × Str) :=
  match s with
  | ']' :: '(' :: u =>
    match u.takeWhile (fun c => c ≠ ')'), u.dropWhile (fun c => c ≠ ')') with
    | _ :: _, ')' :: w => k w
    | _, _ => none
  | _ => none

/-- Alternative A of the leading group: `\[.*\]\([^)]+\)`. -/
def matchA (k : Str → Option (Str × Str × Str)) (s : Str) :
    Option (Str × Str × Str) :=
  match s with
  | '[' :: t => gTail (aClose k) t
  | _ => none

/-- The whitespace class of JavaScript's `\s` (ASCII part; the program's
markdown never contains the exotic unicode spaces). -/
def jsWs (c : Char) : Bool :=
  c = ' ' || c = '\t' || c = '\n' || c = '\r' || c = '\x0b' || c = '\x0c'

/-- The closing literal `\/>` of alternative B, then the continuation. -/
def bClose (k : Str → Option (Str × Str × Str)) (s : Str) :
    Option (Str × Str × Str) :=
  match stripL ("/>".toList) s with
  | some w => k w
  | none => none

/-- Greedy continuation of `\s+` after its first required character. -/
def wsTail (cc : Str → Option (Str × Str × Str)) : Str → Option (Str × Str × Str)
  | [] => cc []
  | c :: t =>
    if jsWs c then
      match wsTail cc t with
      | some v => some v
      | none => cc (c :: t)
    else cc (c :: t)

/-- Alternative B of the leading group: `<img\s+.*\/>`. -/
def matchB (k : Str → Option (Str × Str × Str)) (s : Str) :
    Option (Str × Str × Str) :=
  match stripL ("<img".toList) s with
  | none => none
  | some s1 =>
    match s1 with
    | c :: t => if jsWs c then wsTail (fun r => gTail (bClose k) r) t else none
    | [] => none

/-- Attempt the whole directive regex at the head of `s`: greedily take one
more A- or B-repetition (A preferred, as in the alternation) and recurse, or
exit the starred group and match the core.  `fuel` bounds the number of
repetitions; every repetition consumes at least one character, so
`s.length + 1` fuel is always enough. -/
def matchFull : Nat → Str → Option (Str × Str × Str)
  | 0, _ => none
  | fuel + 1, s =>
    match matchA (fun r => matchFull fuel r) s with
    | some v => some v
    | none =>
      match matchB (fun r => matchFull fuel r) s with
      | some v => some v
      | none => matchCore s

/-- A successful `stripL` decomposes the string. -/
theorem stripL_some {lit s s1 : Str} (h : stripL lit s = some s1) :
    s = lit ++ s1 := by
  unfold stripL at h
  split at h
  · rename_i hp
    injection h with h1
    subst h1
    obtain ⟨t, ht⟩ := List.isPrefixOf_iff_prefix.mp hp
    subst ht
    rw [List.drop_left]
  · exact absurd h (by simp)

/-- The bracketed core consumes at least one character. -/
theorem matchCoreTail_length {s2 lt pth rest : Str}
    (h : matchCoreTail s2 = some (lt, pth, rest)) : rest.length < s2.length := by
  unfold matchCoreTail at h
  split at h
  · rename_i t
    split at h
    · rename_i i inner u htw hdw
      have hu : (']' :: u).length ≤ t.length := by
        rw [← hdw]
        exact List.IsSuffix.length_le (List.dropWhile_suffix _)
      split at h
      · rename_i v
        split at h
        · rename_i c0 chunk0 w htw2 hdw2
          have hw : (')' :: w).length ≤ v.length := by
            rw [← hdw2]
            exact List.IsSuffix.length_le (List.dropWhile_suffix _)
          split at h
          · split at h
            · rename_i rest' h3
              have hw3 : w = "-->".toList ++ rest' := stripL_some h3
              have hwl : rest'.length + 3 = w.length := by rw [hw3]; simp
              have h5 : rest' = rest := by
                have := congrArg (fun z => z.getD ([], [], []) |>.2.2) h
                simpa using this
              subst h5
              simp only [List.length_cons] at hu hw
              simp only [List.length_cons]
              omega
            · exact absurd h (by simp)
          · exact absurd h (by simp)
        · exact absurd h (by simp)
      · exact absurd h (by simp)
    · exact absurd h (by simp)
  · exact absurd h (by simp)

/-- The core match consumes at least one character. -/
theorem matchCore_length {s lt pth rest : Str}
    (h : matchCore s = some (lt, pth, rest)) : rest.length < s.length := by
  unfold matchCore at h
  split at h
  · exact absurd h (by simp)
  · rename_i s1 h0
    have hs1 : s = "<!--".toList ++ s1 := stripL_some h0
    have hlen1 : s1.length + 4 = s.length := by rw [hs1]; simp
    split at h
    · split at h
      · rename_i body chunk rest' h2
        simp only [Option.some.injEq, Prod.mk.injEq] at h
        obtain ⟨-, -, h5⟩ := h
        subst h5
        have hlt := matchCoreTail_length h2
        have hdle : (s1.drop 1).length ≤ s1.length := by
          simp [List.length_drop]
        omega
      · exact absurd h (by simp)
    · have hlt := matchCoreTail_length h
      omega

/-- A successful `gTail` comes from the continuation at some suffix no longer
than the input. -/
theorem gTail_some {cc : Str → Option (Str × Str × Str)} :
    ∀ {s : Str} {v}, gTail cc s = some v → ∃ w, w.length ≤ s.length ∧ cc w = some v := by
  intro s
  induction s with
  | nil =>
    intro v h
    exact ⟨[], by simp, by simpa [gTail] using h⟩
  | cons c t ih =>
    intro v h
    rw [gTail] at h
    by_cases hc : jsDot c = true
    · rw [if_pos hc] at h
      split at h
      · rename_i v' hg
        injection h with h1
        subst h1
        obtain ⟨w, hw, hcc⟩ := ih hg
        refine ⟨w, ?_, hcc⟩
        simp only [List.length_cons]
        omega
      · exact ⟨c :: t, le_refl _, h⟩
    · rw [if_neg hc] at h
      exact ⟨c :: t, le_refl _, h⟩

/-- A successful `aClose` consumes characters before calling `k`. -/
theorem aClose_some {k : Str → Option (Str × Str × Str)} {s : Str} {v}
    (h : aClose k s = some v) : ∃ w, w.length < s.length ∧ k w = some v := by
  unfold aClose at h
  split at h
  · rename_i u
    split at h
    · rename_i c0 ch0 w htw hdw
      refine ⟨w, ?_, h⟩
      have hw : (')' :: w).length ≤ u.length := by
        rw [← hdw]
        exact List.IsSuffix.length_le (List.dropWhile_suffix _)
      simp only [List.length_cons] at hw ⊢
      omega
    · exact absurd h (by simp)
  · exact absurd h (by simp)

/-- A successful A-repetition consumes characters before its continuation. -/
theorem matchA_some {k : Str → Option (Str × Str × Str)} {s : Str} {v}
    (h : matchA k s = some v) : ∃ w, w.length < s.length ∧ k w = some v := by
  unfold matchA at h
  split at h
  · rename_i t
    obtain ⟨w1, hw1, hac⟩ := gTail_some h
    obtain ⟨w, hw, hk⟩ := aClose_some hac
    refine ⟨w, ?_, hk⟩
    simp only [List.length_cons]
    omega
  · exact absurd h (by simp)

/-- A successful `wsTail` comes from the continuation at some suffix. -/
theorem wsTail_some {cc : Str → Option (Str × Str × Str)} :
    ∀ {s : Str} {v}, wsTail cc s = some v → ∃ w, w.length ≤ s.length ∧ cc w = some v := by
  intro s
  induction s with
  | nil =>
    intro v h
    exact ⟨[], by simp, by simpa [wsTail] using h⟩
  | cons c t ih =>
    intro v h
    rw [wsTail] at h
    by_cases hc : jsWs c = true
    · rw [if_pos hc] at h
      split at h
      · rename_i v' hg
        injection h with h1
        subst h1
        obtain ⟨w, hw, hcc⟩ := ih hg
        refine ⟨w, ?_, hcc⟩
        simp only [List.length_cons]
        omega
      · exact ⟨c :: t, le_refl _, h⟩
    · rw [if_neg hc] at h
      exact ⟨c :: t, le_refl _, h⟩

/-- A successful `bClose` consumes the `/>` before calling `k`. -/
theorem bClose_some {k : Str → Option (Str × Str × Str)} {s : Str} {v}
    (h : bClose k s = some v) : ∃ w, w.length < s.length ∧ k w = some v := by
  unfold bClose at h
  split at h
  · rename_i w h0
    have hw := stripL_some h0
    refine ⟨w, ?_, h⟩
    rw [hw, List.length_append]
    have h2 : ("/>".toList).length = 2 := by decide
    omega
  · exact absurd h (by simp)

/-- A successful B-repetition consumes characters before its continuation. -/
theorem matchB_some {k : Str → Option (Str × Str × Str)} {s : Str} {v}
    (h : matchB k s = some v) : ∃ w, w.length < s.length ∧ k w = some v := by
  unfold matchB at h
  split at h
  · exact absurd h (by simp)
  · rename_i s1 h0
    have hs1 := stripL_some h0
    have hl1 : s1.length + 4 = s.length := by rw [hs1]; simp
    split at h
    · rename_i c t
      split at h
      · obtain ⟨w1, hw1, hg⟩ := wsTail_some h
        obtain ⟨w2, hw2, hbc⟩ := gTail_some hg
        obtain ⟨w, hw, hk⟩ := bClose_some hbc
        refine ⟨w, ?_, hk⟩
        simp only [List.length_cons] at hl1
        omega
      · exact absurd h (by simp)
    · exact absurd h (by simp)

/-- The remainder of a full directive match is strictly shorter. -/
theorem matchFull_length :
    ∀ {f : Nat} {s lt pth rest : Str},
      matchFull f s = some (lt, pth, rest) → rest.length < s.length := by
  intro f
  induction f with
  | zero =>
    intro s lt pth rest h
    exact absurd h (by simp [matchFull])
  | succ m ih =>
    intro s lt pth rest h
    rw [matchFull] at h
    split at h
    · rename_i v hA
      injection h with h1
      subst h1
      obtain ⟨w, hw, hk⟩ := matchA_some hA
      have := ih hk
      omega
    · split at h
      · rename_i v hB
        injection h with h1
        subst h1
        obtain ⟨w, hw, hk⟩ := matchB_some hB
        have := ih hk
        omega
      · exact matchCore_length h

/-! ### The rewrite scan and the code-region layers -/

/-- Rewrite context of one documentation file: its path, the render cache,
the embed flag and the svg part of the export artifact map. -/
structure MdCtx where
  mdPath : Str
  cache : List (Str × CacheV)
  embed : Bool
  svgMap : Str → Option Str

/-- JavaScript `String.prototype.trim` (ASCII whitespace). -/
def jsTrim (s : Str) : Str := ((s.dropWhile jsWs).reverse.dropWhile jsWs).reverse

/-- The re-appended hidden directive: `<!--` linkText `(` path `)-->`. -/
def anchorOf (lt pth : Str) : Str :=
  "<!--".toList ++ lt ++ '(' :: (pth ++ ")-->".toList)

/-- The replacement built by the `findMdPumlLinksRE` callback, or a thrown
error when the resolved path has no truthy cache value (`if (!pumlLink)` —
an absent slot and a still-pending `0` slot are both falsy).  The
`console.error` for a missing exported svg file is log-only and elided. -/
def mkRepl (ctx : MdCtx) (lt pth : Str) : Except Unit Str :=
  match lookupC ctx.cache (resolveP (dirnameP ctx.mdPath) pth) with
  | some (.done e) =>
    if lt.head? = some '!' then
      if ctx.embed then
        .ok ("<img class=\"puml-diagram\" alt=\"".toList ++ jsTrim ((lt.drop 2).dropLast) ++
          "\" src=\"".toList ++
          ((ctx.svgMap (resolveP (dirnameP ctx.mdPath) pth)).getD ("undefined".toList)) ++
          "\" />".toList ++ anchorOf lt pth)
      else
        .ok ('[' :: (lt ++ '(' :: (e.url ++ ")](".toList ++ e.url ++ [')'])) ++ anchorOf lt pth)
    else
      .ok (lt ++ '(' :: (e.url ++ [')']) ++ anchorOf lt pth)
  | _ => .error ()

/-- The global `str.replace(findMdPumlLinksRE, cb)` scan over one prose piece:
leftmost match, replacement, continue after the match end; a thrown
dangling-reference error propagates. -/
def mdScan (ctx : MdCtx) : Str → Except Unit Str
  | [] => .ok []
  | c :: t =>
    match hm : matchFull ((c :: t).length + 1) (c :: t) with
    | some (lt, pth, rest) =>
      match mkRepl ctx lt pth with
      | .ok rep =>
        match mdScan ctx rest with
        | .ok out => .ok (rep ++ out)
        | .error er => .error er
      | .error er => .error er
    | none =>
      match mdScan ctx t with
      | .ok out => .ok (c :: out)
      | .error er => .error er
  termination_by s => s.length
  decreasing_by
  · exact matchFull_length hm
  · simp

/-- Distance to the next triple backtick (the `(?=\x60\x60\x60)` lookahead of the
fenced-block regex). -/
def findClose3 : Str → Option Nat
  | [] => none
  | c :: t =>
    if ("\x60\x60\x60".toList).isPrefixOf (c :: t) then some 0
    else (findClose3 t).map (fun k => k + 1)

/-- Match length of the fenced-code-block regex at the head of `s`. -/
def blockMatchAt (s : Str) : Option Nat :=
  match stripL ("\x60\x60\x60".toList) s with
  | some t => (findClose3 t).map (fun k => 3 + k + 3)
  | none => none

/-- Distance to the next backtick on the same line (the `[^\n]*?(?=\x60)`
of the inline-code regex). -/
def tickClose : Str → Option Nat
  | [] => none
  | c :: t =>
    if c = '\x60' then some 0
    else if c = '\n' then none
    else (tickClose t).map (fun k => k + 1)

/-- Match length of the inline-code regex at the head of `s`. -/
def inlineMatchAt : Str → Option Nat
  | '\x60' :: t => (tickClose t).map (fun k => 1 + k + 1)
  | _ => none

/-- Leftmost match of an ignore regex: (text before, match, text after). -/
def findLeft (mAt : Str → Option Nat) : Str → Option (Str × Str × Str)
  | [] => none
  | c :: t =>
    match mAt (c :: t) with
    | some n => some ([], (c :: t).take n, (c :: t).drop n)
    | none => (findLeft mAt t).map (fun pmr => (c :: pmr.1, pmr.2.1, pmr.2.2))

/-- A found match decomposes the string. -/
theorem findLeft_decomp {mAt : Str → Option Nat} :
    ∀ {s pre m rest : Str}, findLeft mAt s = some (pre, m, rest) →
      s = pre ++ m ++ rest := by
  intro s
  induction s with
  | nil => intro pre m rest h; exact absurd h (by simp [findLeft])
  | cons c t ih =>
    intro pre m rest h
    rw [findLeft] at h
    split at h
    · rename_i n hm
      simp only [Option.some.injEq, Prod.mk.injEq] at h
      obtain ⟨h2, h3, h4⟩ := h
      subst h2
      subst h3
      subst h4
      simp [List.take_append_drop]
    · cases hf : findLeft mAt t with
      | none => rw [hf] at h; exact absurd h (by simp)
      | some pmr =>
        rw [hf] at h
        obtain ⟨p1, m1, r1⟩ := pmr
        simp only [Option.map_some', Option.some.injEq, Prod.mk.injEq] at h
        obtain ⟨h2, h3, h4⟩ := h
        subst h2
        subst h3
        subst h4
        have := ih hf
        simp [this]

/-- `String.prototype.split` with the capturing ignore regex: alternating
non-match and match pieces (possibly empty gap pieces, as in JavaScript).
Each found match is nonempty (both ignore regexes consume their delimiters),
so the string shrinks at every step and `s.length + 1` fuel — what the
wrapper below supplies — always suffices; the `m = []` guard is unreachable. -/
def splitByF (mAt : Str → Option Nat) : Nat → Str → List Str
  | 0, s => [s]
  | fuel + 1, s =>
    match findLeft mAt s with
    | none => [s]
    | some (pre, m, rest) =>
      if m = [] then [s] else pre :: m :: splitByF mAt fuel rest

/-- The split at adequate fuel. -/
def splitBy (mAt : Str → Option Nat) (s : Str) : List Str :=
  splitByF mAt (s.length + 1) s

/-- Without a leftmost match the split is the whole string, at any fuel. -/
theorem splitByF_none {mAt : Str → Option Nat} {s : Str} (fuel : Nat)
    (h : findLeft mAt s = none) : splitByF mAt fuel s = [s] := by
  cases fuel with
  | zero => rfl
  | succ n =>
    rw [splitByF, h]

/-- The per-piece map of `replaceIgnore`: pieces containing a match of the
ignore regex (`splitStr.match(...)`) are kept verbatim, the rest go through
the replacement function; a thrown error propagates. -/
def mapPieces (mAt : Str → Option Nat) (f : Str → Except Unit Str) :
    List Str → Except Unit (List Str)
  | [] => .ok []
  | p :: t =>
    match (if (findLeft mAt p).isSome then Except.ok p else f p) with
    | .error er => .error er
    | .ok po =>
      match mapPieces mAt f t with
      | .error er => .error er
      | .ok rest => .ok (po :: rest)

/-- `replaceIgnore(ignoreRegex, str, replaceFn)` from src/index.js: split on
the regex keeping the delimiters, replace only the pieces with no match,
join. -/
def replaceIgnore (mAt : Str → Option Nat) (f : Str → Except Unit Str)
    (s : Str) : Except Unit Str :=
  match mapPieces mAt f (splitBy mAt s) with
  | .ok pieces => .ok pieces.flatten
  | .error er => .error er

/-- `replaceMdIgnoringInlineCode` from src/index.js. -/
def replaceMdIgnoringInlineCode (f : Str → Except Unit Str) (s : Str) :
    Except Unit Str :=
  replaceIgnore inlineMatchAt f s

/-- `replaceMdIgnoringCodeBlocks` from src/index.js. -/
def replaceMdIgnoringCodeBlocks (f : Str → Except Unit Str) (s : Str) :
    Except Unit Str :=
  replaceIgnore blockMatchAt f s

/-- `replaceMdIgnoringCode` from src/index.js: block layer outside, inline
layer inside. -/
def replaceMdIgnoringCode (f : Str → Except Unit Str) (s : Str) :
    Except Unit Str :=
  replaceMdIgnoringCodeBlocks (fun str => replaceMdIgnoringInlineCode f str) s

/-- The full text transformation of `processMdFile`. -/
def rewriteMd (ctx : MdCtx) (s : Str) : Except Unit Str :=
  replaceMdIgnoringCode (fun str => mdScan ctx str) s

/-- `processMdFile(mdPath, pumlLinks, embed, diagramMap)`: read the file,
rewrite, write the result back in place.  A thrown dangling-reference error
propagates before `fs.writeFileSync` runs, so the file is left untouched. -/
def processMdFile (fsys : Str → Option Str) (ctx : MdCtx) :
    Except Unit (Str → Option Str) :=
  match rewriteMd ctx ((fsys ctx.mdPath).getD []) with
  | .ok out => .ok (fun q => if q = ctx.mdPath then some out else fsys q)
  | .error er => .error er

/-! ### Matching lemmas used by the document-rewriter theorems -/

/-- Stripping a literal from itself plus a tail. -/
theorem stripL_append (lit s : Str) : stripL lit (lit ++ s) = some s := by
  simp [stripL, isPrefixOf_append, List.drop_left]

/-- A literal with a different first character never strips. -/
theorem stripL_none {l0 : Char} {ls s : Str} (h : s.head? ≠ some l0) :
    stripL (l0 :: ls) s = none := by
  cases s with
  | nil => simp [stripL, List.isPrefixOf]
  | cons c t =>
    have hc : c ≠ l0 := by
      intro he
      exact h (by simp [he])
    have hb : (l0 == c) = false := by
      simp only [beq_eq_false_iff_ne, ne_eq]
      exact fun he => hc he.symm
    simp [stripL, List.isPrefixOf, hb]

/-- An A-repetition requires a leading `[`. -/
theorem matchA_none {k : Str → Option (Str × Str × Str)} {s : Str}
    (h : s.head? ≠ some '[') : matchA k s = none := by
  unfold matchA
  split
  · rename_i t
    exact (h rfl).elim
  · rfl

/-- A B-repetition requires a leading `<`. -/
theorem matchB_none {k : Str → Option (Str × Str × Str)} {s : Str}
    (h : s.head? ≠ some '<') : matchB k s = none := by
  unfold matchB
  rw [show ("<img".toList) = '<' :: "img".toList from rfl, stripL_none h]

/-- The core requires a leading `<`. -/
theorem matchCore_none {s : Str} (h : s.head? ≠ some '<') : matchCore s = none := by
  unfold matchCore
  rw [show ("<!--".toList) = '<' :: "!--".toList from rfl, stripL_none h]

/-- `<img` does not match at `<!`. -/
theorem matchB_none_bang {k : Str → Option (Str × Str × Str)} (t : Str) :
    matchB k ('<' :: '!' :: t) = none := by
  have hi : (('i' : Char) == '!') = false := by decide
  have hpre : ("<img".toList).isPrefixOf ('<' :: '!' :: t) = false := by
    show (List.isPrefixOf ['<', 'i', 'm', 'g'] ('<' :: '!' :: t)) = false
    simp [List.isPrefixOf, hi]
  simp [matchB, stripL, hpre]

/-- No directive match can start at a character other than `[` or `<`. -/
theorem matchFull_none {f : Nat} {s : Str}
    (h1 : s.head? ≠ some '[') (h2 : s.head? ≠ some '<') :
    matchFull f s = none := by
  cases f with
  | zero => simp [matchFull]
  | succ m =>
    rw [matchFull]
    rw [matchA_none h1, matchB_none h2, matchCore_none h2]

/-- Characters that can never begin or take part in a directive match or a
code-region delimiter: the plain-prose character class used by the theorems. -/
def plainChar (c : Char) : Bool :=
  !(c = '[' || c = ']' || c = '(' || c = ')' || c = '<' || c = '>' || c = '\x60')

/-- The scan copies a plain-prose prefix verbatim and continues. -/
theorem mdScan_append_plain (ctx : MdCtx) {p : Str} (s : Str)
    (hp : ∀ c ∈ p, c ≠ '[' ∧ c ≠ '<') :
    mdScan ctx (p ++ s) =
      match mdScan ctx s with
      | .ok o => .ok (p ++ o)
      | .error er => .error er := by
  induction p with
  | nil =>
    cases hs : mdScan ctx s <;> simp [hs]
  | cons c t ih =>
    have hc := hp c (by simp)
    rw [List.cons_append, mdScan]
    rw [matchFull_none (by simpa using hc.1) (by simpa using hc.2)]
    rw [ih (fun d hd => hp d (by simp [hd]))]
    cases hs : mdScan ctx s <;> simp

/-- The text of a well-formed hidden directive: `<!--` bang `[`inner`](`pth`)-->`. -/
def coreDirective (bang inner pth : Str) : Str :=
  "<!--".toList ++ (bang ++ '[' :: (inner ++ (']' :: '(' :: (pth ++ ")-->".toList))))

/-- The directive is the anchor comment of its own link text. -/
theorem coreDirective_eq_anchor (bang inner pth : Str) :
    coreDirective bang inner pth = anchorOf (bang ++ '[' :: (inner ++ [']'])) pth := by
  simp [coreDirective, anchorOf]

/-- `matchCoreTail` at a well-formed bracketed directive body. -/
theorem matchCoreTail_at (i : Char) (inn : Str) (c0 : Char) (ch0 rest : Str)
    (hin : ∀ c ∈ i :: inn, c ≠ ']')
    (hpc : ∀ c ∈ c0 :: ch0, c ≠ ')')
    (hp6 : 6 ≤ (c0 :: ch0).length)
    (hps : (c0 :: ch0).drop ((c0 :: ch0).length - 5) = pumlSuffix) :
    matchCoreTail
        ('[' :: ((i :: inn) ++ (']' :: '(' :: ((c0 :: ch0) ++ (')' :: ("-->".toList ++ rest)))))) =
      some ('[' :: ((i :: inn) ++ [']']), c0 :: ch0, rest) := by
  have htw : ((i :: inn) ++ (']' :: '(' :: ((c0 :: ch0) ++ (')' :: ("-->".toList ++ rest))))).takeWhile
      (fun c => decide (c ≠ ']')) = i :: inn := by
    rw [takeWhile_append_all _ (fun c hc => by simpa using hin c hc)]
    simp
  have hdw : ((i :: inn) ++ (']' :: '(' :: ((c0 :: ch0) ++ (')' :: ("-->".toList ++ rest))))).dropWhile
      (fun c => decide (c ≠ ']')) = ']' :: '(' :: ((c0 :: ch0) ++ (')' :: ("-->".toList ++ rest))) := by
    rw [dropWhile_append_all _ (fun c hc => by simpa using hin c hc)]
    simp
  have htw2 : ((c0 :: ch0) ++ (')' :: ("-->".toList ++ rest))).takeWhile
      (fun c => decide (c ≠ ')')) = c0 :: ch0 := by
    rw [takeWhile_append_all _ (fun c hc => by simpa using hpc c hc)]
    simp
  have hdw2 : ((c0 :: ch0) ++ (')' :: ("-->".toList ++ rest))).dropWhile
      (fun c => decide (c ≠ ')')) = ')' :: ("-->".toList ++ rest) := by
    rw [dropWhile_append_all _ (fun c hc => by simpa using hpc c hc)]
    simp
  simp only [matchCoreTail]
  rw [htw, hdw]
  simp only [htw2, hdw2]
  rw [if_pos ⟨hp6, hps⟩, stripL_append]

/-- `matchCore` at a well-formed directive followed by arbitrary text. -/
theorem matchCore_at (bang : Str) (i : Char) (inn : Str) (c0 : Char) (ch0 rest : Str)
    (hbang : bang = [] ∨ bang = ['!'])
    (hin : ∀ c ∈ i :: inn, c ≠ ']')
    (hpc : ∀ c ∈ c0 :: ch0, c ≠ ')')
    (hp6 : 6 ≤ (c0 :: ch0).length)
    (hps : (c0 :: ch0).drop ((c0 :: ch0).length - 5) = pumlSuffix) :
    matchCore (coreDirective bang (i :: inn) (c0 :: ch0) ++ rest) =
      some (bang ++ '[' :: ((i :: inn) ++ [']']), c0 :: ch0, rest) := by
  have hshape : coreDirective bang (i :: inn) (c0 :: ch0) ++ rest =
      "<!--".toList ++ (bang ++ '[' :: ((i :: inn) ++
        (']' :: '(' :: ((c0 :: ch0) ++ (')' :: ("-->".toList ++ rest)))))) := by
    simp [coreDirective]
  rw [hshape]
  unfold matchCore
  rw [stripL_append]
  rcases hbang with hb | hb
  · subst hb
    simp only [List.nil_append]
    rw [if_neg (by simp)]
    exact matchCoreTail_at i inn c0 ch0 rest hin hpc hp6 hps
  · subst hb
    show (match matchCoreTail ('[' :: ((i :: inn) ++ (']' :: '(' :: ((c0 :: ch0) ++
        (')' :: ("-->".toList ++ rest)))))) with
      | some (body, chunk, r) => some ('!' :: body, chunk, r)
      | none => none) =
      some (['!'] ++ '[' :: ((i :: inn) ++ [']']), c0 :: ch0, rest)
    rw [matchCoreTail_at i inn c0 ch0 rest hin hpc hp6 hps]
    rfl

/-- The full matcher at a well-formed directive: no A- or B-repetition can
start on `<!`, so the match is exactly the core, with its two captures. -/
theorem matchFull_at_core (f : Nat) (bang : Str) (i : Char) (inn : Str)
    (c0 : Char) (ch0 rest : Str)
    (hbang : bang = [] ∨ bang = ['!'])
    (hin : ∀ c ∈ i :: inn, c ≠ ']')
    (hpc : ∀ c ∈ c0 :: ch0, c ≠ ')')
    (hp6 : 6 ≤ (c0 :: ch0).length)
    (hps : (c0 :: ch0).drop ((c0 :: ch0).length - 5) = pumlSuffix) :
    matchFull (f + 1) (coreDirective bang (i :: inn) (c0 :: ch0) ++ rest) =
      some (bang ++ '[' :: ((i :: inn) ++ [']']), c0 :: ch0, rest) := by
  have hshape : coreDirective bang (i :: inn) (c0 :: ch0) ++ rest =
      '<' :: '!' :: ("--".toList ++ (bang ++ '[' :: ((i :: inn) ++
        (']' :: '(' :: ((c0 :: ch0) ++ (')' :: ("-->".toList ++ rest))))))) := by
    simp [coreDirective]
  have hA : matchA (fun r => matchFull f r)
      (coreDirective bang (i :: inn) (c0 :: ch0) ++ rest) = none := by
    rw [hshape]
    exact matchA_none (by simp)
  have hB : matchB (fun r => matchFull f r)
      (coreDirective bang (i :: inn) (c0 :: ch0) ++ rest) = none := by
    rw [hshape]
    exact matchB_none_bang _
  rw [matchFull]
  simp only [hA, hB]
  exact matchCore_at bang i inn c0 ch0 rest hbang hin hpc hp6 hps

/-! ### Code-region layer lemmas -/

/-- A fenced-block match needs a leading backtick. -/
theorem blockMatchAt_none {s : Str} (h : s.head? ≠ some '\x60') :
    blockMatchAt s = none := by
  unfold blockMatchAt
  rw [show ("\x60\x60\x60".toList) = '\x60' :: "\x60\x60".toList from rfl, stripL_none h]

/-- An inline-code match needs a leading backtick. -/
theorem inlineMatchAt_none {s : Str} (h : s.head? ≠ some '\x60') :
    inlineMatchAt s = none := by
  unfold inlineMatchAt
  split
  · rename_i t
    exact (h rfl).elim
  · rfl

/-- No backtick, no closing inline tick. -/
theorem tickClose_none {s : Str} (h : ∀ c ∈ s, c ≠ '\x60') : tickClose s = none := by
  induction s with
  | nil => rfl
  | cons c t ih =>
    rw [tickClose, if_neg (by simpa using h c (by simp))]
    by_cases hn : c = '\n'
    · rw [if_pos hn]
    · rw [if_neg hn, ih (fun d hd => h d (by simp [hd]))]
      rfl

/-- No backtick, no triple backtick. -/
theorem findClose3_none {s : Str} (h : ∀ c ∈ s, c ≠ '\x60') : findClose3 s = none := by
  induction s with
  | nil => rfl
  | cons c t ih =>
    have hb : (('\x60' : Char) == c) = false := by
      simp only [beq_eq_false_iff_ne, ne_eq]
      exact fun he => h c (by simp) he.symm
    rw [findClose3, if_neg (by simp [List.isPrefixOf, hb]), ih (fun d hd => h d (by simp [hd]))]
    rfl

/-- The first triple backtick after a tickless `mid` is the closing fence. -/
theorem findClose3_at {mid : Str} (z : Str) (h : ∀ c ∈ mid, c ≠ '\x60') :
    findClose3 (mid ++ ("\x60\x60\x60".toList ++ z)) = some mid.length := by
  induction mid with
  | nil =>
    rw [List.nil_append]
    have hp : ("\x60\x60\x60".toList).isPrefixOf ('\x60' :: ("\x60\x60".toList ++ z)) = true :=
      isPrefixOf_append ("\x60\x60\x60".toList) z
    rw [show ("\x60\x60\x60".toList ++ z) = '\x60' :: ("\x60\x60".toList ++ z) from rfl]
    rw [findClose3, if_pos hp]
    rfl
  | cons c t ih =>
    have hb : (('\x60' : Char) == c) = false := by
      simp only [beq_eq_false_iff_ne, ne_eq]
      exact fun he => h c (by simp) he.symm
    rw [List.cons_append, findClose3, if_neg (by simp [List.isPrefixOf, hb])]
    rw [ih (fun d hd => h d (by simp [hd]))]
    rfl

/-- The block regex at an opening fence whose body has no backticks. -/
theorem blockMatchAt_fence {mid : Str} (post : Str) (h : ∀ c ∈ mid, c ≠ '\x60') :
    blockMatchAt ("\x60\x60\x60".toList ++ mid ++ ("\x60\x60\x60".toList ++ post)) =
      some (3 + mid.length + 3) := by
  unfold blockMatchAt
  rw [List.append_assoc, stripL_append]
  simp only [findClose3_at post h, Option.map_some']

/-- If the matcher refuses every nonempty suffix, there is no leftmost match. -/
theorem findLeft_none {mAt : Str → Option Nat} {s : Str}
    (h : ∀ q : Str, q ≠ [] → q <:+ s → mAt q = none) : findLeft mAt s = none := by
  induction s with
  | nil => rfl
  | cons c t ih =>
    rw [findLeft]
    have hc := h (c :: t) (by simp) (List.suffix_refl _)
    simp only [hc]
    rw [ih (fun q hq hs => h q hq (hs.trans (List.suffix_cons c t)))]
    rfl

/-- Scanning past a region where the matcher refuses every suffix position. -/
theorem findLeft_append {mAt : Str → Option Nat} {p : Str} (s : Str)
    (hp : ∀ q : Str, q ≠ [] → q <:+ p → mAt (q ++ s) = none) :
    findLeft mAt (p ++ s) =
      match findLeft mAt s with
      | some x => some (p ++ x.1, x.2.1, x.2.2)
      | none => none := by
  induction p with
  | nil =>
    cases hf : findLeft mAt s with
    | none => simp [hf]
    | some x => obtain ⟨a, m, r⟩ := x; simp [hf]
  | cons c t ih =>
    rw [List.cons_append, findLeft]
    have hc : mAt (c :: (t ++ s)) = none := by
      have := hp (c :: t) (by simp) (List.suffix_refl _)
      simpa using this
    simp only [hc]
    rw [ih (fun q hq hs => hp q hq (hs.trans (List.suffix_cons c t)))]
    cases hf : findLeft mAt s with
    | none => rfl
    | some x => obtain ⟨a, m, r⟩ := x; rfl

/-- If the whole string has no leftmost match, `replaceIgnore` is just the
replacement function. -/
theorem replaceIgnore_noMatch {mAt : Str → Option Nat}
    (f : Str → Except Unit Str) {s : Str} (h : findLeft mAt s = none) :
    replaceIgnore mAt f s = f s := by
  unfold replaceIgnore splitBy
  rw [splitByF_none _ h]
  unfold mapPieces
  rw [show ((findLeft mAt s).isSome) = false from by simp [h], if_neg (by simp)]
  cases hf : f s with
  | error er => rfl
  | ok o =>
    unfold mapPieces
    simp

/-- Essential characters of a suffix belong to the string. -/
theorem head_mem_of_suffix {q s : Str} {c : Char} {t : Str}
    (hq : q = c :: t) (hs : q <:+ s) : c ∈ s := by
  obtain ⟨u, hu⟩ := hs
  subst hq
  rw [← hu]
  simp

/-- On backtick-free text both ignore layers are transparent: the rewrite is
exactly the prose scan. -/
theorem rewriteMd_no_tick (ctx : MdCtx) {s : Str} (h : ∀ c ∈ s, c ≠ '\x60') :
    rewriteMd ctx s = mdScan ctx s := by
  have hblock : findLeft blockMatchAt s = none := by
    refine findLeft_none (fun q hq hsuf => ?_)
    cases q with
    | nil => exact absurd rfl hq
    | cons c t =>
      refine blockMatchAt_none ?_
      intro hc
      simp only [List.head?_cons, Option.some.injEq] at hc
      exact h c (head_mem_of_suffix rfl hsuf) hc
  have hinline : findLeft inlineMatchAt s = none := by
    refine findLeft_none (fun q hq hsuf => ?_)
    cases q with
    | nil => exact absurd rfl hq
    | cons c t =>
      refine inlineMatchAt_none ?_
      intro hc
      simp only [List.head?_cons, Option.some.injEq] at hc
      exact h c (head_mem_of_suffix rfl hsuf) hc
  unfold rewriteMd replaceMdIgnoringCode replaceMdIgnoringCodeBlocks
  rw [replaceIgnore_noMatch _ hblock]
  unfold replaceMdIgnoringInlineCode
  rw [replaceIgnore_noMatch _ hinline]

/-- The scan over plain prose, a single well-formed directive, then anything:
the prose is copied, the directive is replaced via `mkRepl` (or the error
thrown there propagates), and the scan continues on the rest. -/
theorem mdScan_single (ctx : MdCtx) (s0 bang : Str) (i : Char) (inn : Str)
    (c0 : Char) (ch0 s1 : Str)
    (hs0 : ∀ c ∈ s0, c ≠ '[' ∧ c ≠ '<')
    (hbang : bang = [] ∨ bang = ['!'])
    (hin : ∀ c ∈ i :: inn, c ≠ ']')
    (hpc : ∀ c ∈ c0 :: ch0, c ≠ ')')
    (hp6 : 6 ≤ (c0 :: ch0).length)
    (hps : (c0 :: ch0).drop ((c0 :: ch0).length - 5) = pumlSuffix) :
    mdScan ctx (s0 ++ (coreDirective bang (i :: inn) (c0 :: ch0) ++ s1)) =
      match mkRepl ctx (bang ++ '[' :: ((i :: inn) ++ [']'])) (c0 :: ch0) with
      | .ok rep =>
        (match mdScan ctx s1 with
         | .ok o => .ok (s0 ++ (rep ++ o))
         | .error er => .error er)
      | .error er => .error er := by
  rw [mdScan_append_plain ctx _ hs0]
  have hcons : coreDirective bang (i :: inn) (c0 :: ch0) ++ s1 =
      '<' :: ("!--".toList ++ (bang ++ '[' :: ((i :: inn) ++
        (']' :: '(' :: ((c0 :: ch0) ++ (')' :: ("-->".toList ++ s1))))))) := by
    simp [coreDirective]
  have hscan : mdScan ctx (coreDirective bang (i :: inn) (c0 :: ch0) ++ s1) =
      match mkRepl ctx (bang ++ '[' :: ((i :: inn) ++ [']'])) (c0 :: ch0) with
      | .ok rep =>
        (match mdScan ctx s1 with
         | .ok o => .ok (rep ++ o)
         | .error er => .error er)
      | .error er => .error er := by
    rw [hcons, mdScan, ← hcons]
    rw [matchFull_at_core ((coreDirective bang (i :: inn) (c0 :: ch0) ++ s1).length)
      bang i inn c0 ch0 s1 hbang hin hpc hp6 hps]
  rw [hscan]
  cases hrep : mkRepl ctx (bang ++ '[' :: ((i :: inn) ++ [']'])) (c0 :: ch0) with
  | error er => rfl
  | ok rep =>
    cases hs : mdScan ctx s1 with
    | error er => rfl
    | ok o => simp

/-- Pointwise facts over an append. -/
theorem forall_mem_append {P : Char → Prop} {a b : Str}
    (ha : ∀ c ∈ a, P c) (hb : ∀ c ∈ b, P c) : ∀ c ∈ a ++ b, P c := by
  intro c hc
  rcases List.mem_append.mp hc with h | h
  · exact ha c h
  · exact hb c h

/-- Unpacking the plain-prose character class. -/
theorem plainChar_spec {c : Char} (h : plainChar c = true) :
    c ≠ '[' ∧ c ≠ ']' ∧ c ≠ '(' ∧ c ≠ ')' ∧ c ≠ '<' ∧ c ≠ '>' ∧ c ≠ '\x60' := by
  unfold plainChar at h
  simp only [Bool.not_eq_eq_eq_not, Bool.not_true, Bool.or_eq_false_iff,
    decide_eq_false_iff_not] at h
  obtain ⟨⟨⟨⟨⟨⟨h1, h2⟩, h3⟩, h4⟩, h5⟩, h6⟩, h7⟩ := h
  exact ⟨h1, h2, h3, h4, h5, h6, h7⟩

/-- The directive text written out character by character. -/
theorem coreDirective_chars (bang inner pth : Str) :
    coreDirective bang inner pth =
      '<' :: '!' :: '-' :: '-' :: (bang ++ '[' :: (inner ++ (']' :: '(' ::
        (pth ++ [')', '-', '-', '>'])))) := rfl

/-- A directive built from backtick-free pieces has no backticks. -/
theorem coreDirective_no_tick {bang inner pth : Str}
    (hbang : bang = [] ∨ bang = ['!'])
    (hi : ∀ c ∈ inner, c ≠ '\x60') (hp : ∀ c ∈ pth, c ≠ '\x60') :
    ∀ c ∈ coreDirective bang inner pth, c ≠ '\x60' := by
  intro c hc
  rw [coreDirective_chars] at hc
  simp only [List.mem_cons, List.mem_append] at hc
  rcases hc with h | h | h | h | h
  · subst h; decide
  · subst h; decide
  · subst h; decide
  · subst h; decide
  · rcases h with h | h
    · rcases hbang with hb | hb
      · rw [hb] at h; simp at h
      · rw [hb] at h
        simp only [List.mem_singleton] at h
        subst h; decide
    · rcases h with h | h
      · subst h; decide
      · rcases h with h | h
        · exact hi c h
        · rcases h with h | h
          · subst h; decide
          · rcases h with h | h
            · subst h; decide
            · rcases h with h | h
              · exact hp c h
              · simp only [List.mem_cons, List.not_mem_nil, or_false] at h
                rcases h with h | h | h | h <;> (subst h; decide)

/-- The scan leaves pure prose untouched. -/
theorem mdScan_plain (ctx : MdCtx) {p : Str}
    (hp : ∀ c ∈ p, c ≠ '[' ∧ c ≠ '<') : mdScan ctx p = .ok p := by
  have h := mdScan_append_plain ctx ([] : Str) hp
  simpa [mdScan] using h

/-- C3 (embed off, image directive): for a document whose prose contains the
directive `<!--![Alt Text](./a.puml)-->` with `./a.puml` registered and
resolved to an entry with render URL `e.url`, the rewrite replaces the
directive with exactly `[![Alt Text](` url `)](` url `)` followed by the
original hidden directive, verbatim. -/
theorem C3_embed_off_image_rewrite (ctx : MdCtx) (s0 s1 : Str) (e : Entry)
    (hembed : ctx.embed = false)
    (hs0 : ∀ c ∈ s0, plainChar c = true)
    (hs1 : ∀ c ∈ s1, plainChar c = true)
    (hlook : lookupC ctx.cache
        (resolveP (dirnameP ctx.mdPath) ("./a.puml".toList)) = some (.done e)) :
    rewriteMd ctx (s0 ++ (coreDirective ['!'] ("Alt Text".toList) ("./a.puml".toList) ++ s1)) =
      .ok (s0 ++ (('[' :: ("![Alt Text]".toList ++ '(' :: (e.url ++ ")](".toList ++
        e.url ++ [')'])) ++ anchorOf ("![Alt Text]".toList) ("./a.puml".toList)) ++ s1)) := by
  have hticks : ∀ c ∈ s0 ++ (coreDirective ['!'] ("Alt Text".toList) ("./a.puml".toList) ++ s1),
      c ≠ '\x60' := by
    refine forall_mem_append (fun c hc => (plainChar_spec (hs0 c hc)).2.2.2.2.2.2) ?_
    refine forall_mem_append ?_ (fun c hc => (plainChar_spec (hs1 c hc)).2.2.2.2.2.2)
    exact coreDirective_no_tick (Or.inr rfl) (by decide) (by decide)
  rw [rewriteMd_no_tick ctx hticks]
  rw [show ("Alt Text".toList) = 'A' :: "lt Text".toList from rfl,
    show ("./a.puml".toList) = '.' :: "/a.puml".toList from rfl]
  rw [mdScan_single ctx s0 ['!'] 'A' ("lt Text".toList) '.' ("/a.puml".toList) s1
    (fun c hc => ⟨(plainChar_spec (hs0 c hc)).1, (plainChar_spec (hs0 c hc)).2.2.2.2.1⟩)
    (Or.inr rfl) (by decide) (by decide) (by decide) (by decide)]
  have hrepl : mkRepl ctx (['!'] ++ '[' :: (('A' :: "lt Text".toList) ++ [']']))
      ('.' :: "/a.puml".toList) =
      .ok ('[' :: ("![Alt Text]".toList ++ '(' :: (e.url ++ ")](".toList ++
        e.url ++ [')'])) ++ anchorOf ("![Alt Text]".toList) ("./a.puml".toList)) := by
    unfold mkRepl
    rw [show ('.' :: "/a.puml".toList) = ("./a.puml".toList) from rfl]
    simp only [hlook]
    rw [if_pos (by decide), hembed]
    rfl
  rw [hrepl, mdScan_plain ctx
    (fun c hc => ⟨(plainChar_spec (hs1 c hc)).1, (plainChar_spec (hs1 c hc)).2.2.2.2.1⟩)]
  rfl

/-- Concrete entry for the C3 witness. -/
def c3entry : Entry := { encodedData := "E".toList, url := "U".toList, data := "D".toList }

/-- Concrete context for the C3 witness. -/
def c3ctx : MdCtx :=
  { mdPath := "/docs/readme.md".toList,
    cache := [("/docs/a.puml".toList, .done c3entry)],
    embed := false,
    svgMap := fun _ => none }

/-- Witness for C3 at a concrete document and cache: the output is exactly
`[![Alt Text](U)](U)<!--![Alt Text](./a.puml)-->` in place of the directive. -/
theorem C3_embed_off_image_rewrite_witness :
    rewriteMd c3ctx ("# T\n<!--![Alt Text](./a.puml)-->\nx".toList) =
      .ok ("# T\n[![Alt Text](U)](U)<!--![Alt Text](./a.puml)-->\nx".toList) :=
  C3_embed_off_image_rewrite c3ctx ("# T\n".toList) ("\nx".toList) c3entry rfl
    (by decide) (by decide) (by decide)

/-- C4 amended (dangling reference in prose): for a documentation file whose
text is prose around a well-formed hidden directive, where the directive's
path — resolved against the file's directory — was never registered in the
cache, `processMdFile` throws the dangling-reference error and, because the
write is sequenced after the rewrite, nothing is written for that file. -/
theorem C4_dangling_reference_error (fsys : Str → Option Str) (ctx : MdCtx)
    (s0 bang : Str) (i : Char) (inn : Str) (c0 : Char) (ch0 s1 : Str)
    (htext : fsys ctx.mdPath = some (s0 ++ (coreDirective bang (i :: inn) (c0 :: ch0) ++ s1)))
    (hs0 : ∀ c ∈ s0, plainChar c = true)
    (hs1 : ∀ c ∈ s1, plainChar c = true)
    (hbang : bang = [] ∨ bang = ['!'])
    (hin : ∀ c ∈ i :: inn, c ≠ ']')
    (hint : ∀ c ∈ i :: inn, c ≠ '\x60')
    (hpc : ∀ c ∈ c0 :: ch0, c ≠ ')')
    (hpt : ∀ c ∈ c0 :: ch0, c ≠ '\x60')
    (hp6 : 6 ≤ (c0 :: ch0).length)
    (hps : (c0 :: ch0).drop ((c0 :: ch0).length - 5) = pumlSuffix)
    (hlook : lookupC ctx.cache (resolveP (dirnameP ctx.mdPath) (c0 :: ch0)) = none) :
    processMdFile fsys ctx = .error () := by
  unfold processMdFile
  rw [htext]
  have hticks : ∀ c ∈ s0 ++ (coreDirective bang (i :: inn) (c0 :: ch0) ++ s1),
      c ≠ '\x60' := by
    refine forall_mem_append (fun c hc => (plainChar_spec (hs0 c hc)).2.2.2.2.2.2) ?_
    refine forall_mem_append ?_ (fun c hc => (plainChar_spec (hs1 c hc)).2.2.2.2.2.2)
    exact coreDirective_no_tick hbang hint hpt
  rw [show ((some (s0 ++ (coreDirective bang (i :: inn) (c0 :: ch0) ++ s1))).getD []) =
    s0 ++ (coreDirective bang (i :: inn) (c0 :: ch0) ++ s1) from rfl]
  rw [rewriteMd_no_tick ctx hticks]
  rw [mdScan_single ctx s0 bang i inn c0 ch0 s1
    (fun c hc => ⟨(plainChar_spec (hs0 c hc)).1, (plainChar_spec (hs0 c hc)).2.2.2.2.1⟩)
    hbang hin hpc hp6 hps]
  have hrepl : mkRepl ctx (bang ++ '[' :: ((i :: inn) ++ [']'])) (c0 :: ch0) = .error () := by
    unfold mkRepl
    simp only [hlook]
  rw [hrepl]

/-! ### Re-matching the emitted replacements (second-run behaviour) -/

/-- `aClose` requires a leading `]`. -/
theorem aClose_none_head {k : Str → Option (Str × Str × Str)} {s : Str}
    (h : s.head? ≠ some ']') : aClose k s = none := by
  unfold aClose
  split
  · rename_i u
    exact (h rfl).elim
  · rfl

/-- `aClose` at `](u)` with a parenthesis-free nonempty `u`. -/
theorem aClose_at {k : Str → Option (Str × Str × Str)} (c0 : Char) (u0 w : Str)
    (hu : ∀ c ∈ c0 :: u0, c ≠ ')') :
    aClose k (']' :: '(' :: ((c0 :: u0) ++ (')' :: w))) = k w := by
  have htw : ((c0 :: u0) ++ (')' :: w)).takeWhile (fun c => decide (c ≠ ')')) = c0 :: u0 := by
    rw [takeWhile_append_all _ (fun c hc => by simpa using hu c hc)]
    simp
  have hdw : ((c0 :: u0) ++ (')' :: w)).dropWhile (fun c => decide (c ≠ ')')) = ')' :: w := by
    rw [dropWhile_append_all _ (fun c hc => by simpa using hu c hc)]
    simp
  unfold aClose
  simp only [htw, hdw]

/-- If the continuation refuses every suffix, the greedy `.*` search fails. -/
theorem gTail_none {cc : Str → Option (Str × Str × Str)} :
    ∀ {s : Str}, (∀ q : Str, q <:+ s → cc q = none) → gTail cc s = none := by
  intro s
  induction s with
  | nil => intro h; simpa [gTail] using h [] List.nil_suffix
  | cons c t ih =>
    intro h
    rw [gTail]
    by_cases hc : jsDot c = true
    · rw [if_pos hc, ih (fun q hq => h q (hq.trans (List.suffix_cons c t)))]
      exact h (c :: t) (List.suffix_refl _)
    · rw [if_neg hc]
      exact h (c :: t) (List.suffix_refl _)

/-- Skipping a line-terminator-free block whose positions all refuse the
close. -/
theorem gTail_skip {cc : Str → Option (Str × Str × Str)} {xs : Str} (ys : Str)
    (hnl : ∀ c ∈ xs, jsDot c = true)
    (hcc : ∀ q : Str, q ≠ [] → q <:+ xs → cc (q ++ ys) = none) :
    gTail cc (xs ++ ys) = gTail cc ys := by
  induction xs with
  | nil => rfl
  | cons c t ih =>
    rw [List.cons_append, gTail, if_pos (hnl c (by simp))]
    rw [ih (fun d hd => hnl d (by simp [hd]))
      (fun q hq hs => hcc q hq (hs.trans (List.suffix_cons c t)))]
    cases hg : gTail cc ys with
    | some v => rfl
    | none =>
      have := hcc (c :: t) (by simp) (List.suffix_refl _)
      simpa using this

/-- A deeper success short-circuits the greedy `.*` search. -/
theorem gTail_skip_of_some {cc : Str → Option (Str × Str × Str)} {xs ys : Str} {v}
    (hnl : ∀ c ∈ xs, jsDot c = true) (h : gTail cc ys = some v) :
    gTail cc (xs ++ ys) = some v := by
  induction xs with
  | nil => simpa using h
  | cons c t ih =>
    rw [List.cons_append, gTail, if_pos (hnl c (by simp))]
    rw [ih (fun d hd => hnl d (by simp [hd]))]

/-! ### Code-region passthrough -/

/-- The fence delimiter. -/
def fence3 : Str := "\x60\x60\x60".toList

/-- The closing backtick of an inline span after newline- and tick-free text. -/
theorem tickClose_at {b : Str} (z : Str)
    (hb : ∀ c ∈ b, c ≠ '\x60' ∧ c ≠ '\n') :
    tickClose (b ++ ('\x60' :: z)) = some b.length := by
  induction b with
  | nil => simp [tickClose]
  | cons c t ih =>
    rw [List.cons_append, tickClose, if_neg (hb c (by simp)).1,
      if_neg (hb c (by simp)).2, ih (fun d hd => hb d (by simp [hd]))]
    rfl

/-- Backtick-free text contains no fenced-block match. -/
theorem findLeft_block_none {s : Str} (h : ∀ c ∈ s, c ≠ '\x60') :
    findLeft blockMatchAt s = none := by
  refine findLeft_none (fun q hq hsuf => ?_)
  cases q with
  | nil => exact absurd rfl hq
  | cons c t =>
    refine blockMatchAt_none ?_
    intro hc
    simp only [List.head?_cons, Option.some.injEq] at hc
    exact h c (head_mem_of_suffix rfl hsuf) hc

/-- Backtick-free text contains no inline-code match. -/
theorem findLeft_inline_none {s : Str} (h : ∀ c ∈ s, c ≠ '\x60') :
    findLeft inlineMatchAt s = none := by
  refine findLeft_none (fun q hq hsuf => ?_)
  cases q with
  | nil => exact absurd rfl hq
  | cons c t =>
    refine inlineMatchAt_none ?_
    intro hc
    simp only [List.head?_cons, Option.some.injEq] at hc
    exact h c (head_mem_of_suffix rfl hsuf) hc

/-- A piece containing an ignore-regex match is kept verbatim. -/
theorem mapPieces_cons_keep {mAt : Str → Option Nat} {f : Str → Except Unit Str}
    {p : Str} {t : List Str} (h : (findLeft mAt p).isSome = true) :
    mapPieces mAt f (p :: t) =
      match mapPieces mAt f t with
      | .error er => .error er
      | .ok rest => .ok (p :: rest) := by
  rw [mapPieces, if_pos h]

/-- A piece without a match goes through the replacement function. -/
theorem mapPieces_cons_go {mAt : Str → Option Nat} {f : Str → Except Unit Str}
    {p : Str} {t : List Str} {po : Str}
    (h : findLeft mAt p = none) (hf : f p = .ok po) :
    mapPieces mAt f (p :: t) =
      match mapPieces mAt f t with
      | .error er => .error er
      | .ok rest => .ok (po :: rest) := by
  rw [mapPieces, if_neg (by rw [h]; simp), hf]

/-- `replaceIgnore` on a string splitting as gap–match–gap, where both gaps
are match-free and mapped to themselves: everything is passed through. -/
theorem replaceIgnore_split3 {mAt : Str → Option Nat} (f : Str → Except Unit Str)
    {pre m post : Str}
    (hfl : findLeft mAt (pre ++ (m ++ post)) = some (pre, m, post))
    (hm : m ≠ [])
    (hmS : (findLeft mAt m).isSome = true)
    (hpre : findLeft mAt pre = none)
    (hpost : findLeft mAt post = none)
    (hfpre : f pre = .ok pre) (hfpost : f post = .ok post) :
    replaceIgnore mAt f (pre ++ (m ++ post)) = .ok (pre ++ (m ++ post)) := by
  unfold replaceIgnore splitBy
  rw [splitByF, hfl]
  simp only [if_neg hm]
  rw [splitByF_none _ hpost]
  rw [mapPieces_cons_go hpre hfpre, mapPieces_cons_keep hmS,
    mapPieces_cons_go hpost hfpost]
  rw [show mapPieces mAt f [] = Except.ok [] from rfl]
  simp

/-- A leftmost match at the head of the string. -/
theorem findLeft_head_some {mAt : Str → Option Nat} {s : Str} {n : Nat}
    (hs : s ≠ []) (h : mAt s = some n) :
    findLeft mAt s = some ([], s.take n, s.drop n) := by
  cases s with
  | nil => exact absurd rfl hs
  | cons c t => rw [findLeft, h]

/-- A fenced code block between plain prose passes through the Document
Rewriter verbatim, whatever the (backtick-free) body contains. -/
theorem rewriteMd_fence (ctx : MdCtx) {pre mid post : Str}
    (hpre : ∀ c ∈ pre, plainChar c = true)
    (hmid : ∀ c ∈ mid, c ≠ '\x60')
    (hpost : ∀ c ∈ post, plainChar c = true) :
    rewriteMd ctx (pre ++ ((fence3 ++ mid ++ fence3) ++ post)) =
      .ok (pre ++ ((fence3 ++ mid ++ fence3) ++ post)) := by
  have hpreT : ∀ c ∈ pre, c ≠ '\x60' :=
    fun c hc => (plainChar_spec (hpre c hc)).2.2.2.2.2.2
  have hpostT : ∀ c ∈ post, c ≠ '\x60' :=
    fun c hc => (plainChar_spec (hpost c hc)).2.2.2.2.2.2
  have hlen : (fence3 ++ mid ++ fence3).length = 3 + mid.length + 3 := by
    simp [fence3]
    omega
  have hB : blockMatchAt ((fence3 ++ mid ++ fence3) ++ post) = some (3 + mid.length + 3) := by
    rw [show (fence3 ++ mid ++ fence3) ++ post =
      "\x60\x60\x60".toList ++ mid ++ ("\x60\x60\x60".toList ++ post) from by
        simp [fence3]]
    exact blockMatchAt_fence post hmid
  have hm1 : findLeft blockMatchAt ((fence3 ++ mid ++ fence3) ++ post) =
      some ([], fence3 ++ mid ++ fence3, post) := by
    rw [findLeft_head_some (by simp [fence3]) hB]
    rw [List.take_left' hlen, List.drop_left' hlen]
  have hfl : findLeft blockMatchAt (pre ++ ((fence3 ++ mid ++ fence3) ++ post)) =
      some (pre, fence3 ++ mid ++ fence3, post) := by
    rw [findLeft_append _ (fun q hq hsuf => ?_)]
    · rw [hm1]
      simp
    · cases q with
      | nil => exact absurd rfl hq
      | cons c t =>
        refine blockMatchAt_none ?_
        intro hcontra
        simp only [List.cons_append, List.head?_cons, Option.some.injEq] at hcontra
        exact hpreT c (head_mem_of_suffix rfl hsuf) hcontra
  have hB0 : blockMatchAt (fence3 ++ mid ++ fence3) = some (3 + mid.length + 3) := by
    rw [show fence3 ++ mid ++ fence3 =
      "\x60\x60\x60".toList ++ mid ++ ("\x60\x60\x60".toList ++ ([] : Str)) from by
        simp [fence3]]
    exact blockMatchAt_fence [] hmid
  have hmS : (findLeft blockMatchAt (fence3 ++ mid ++ fence3)).isSome = true := by
    rw [findLeft_head_some (by simp [fence3]) hB0]
    rfl
  have hfpre : replaceMdIgnoringInlineCode (fun str => mdScan ctx str) pre = .ok pre := by
    unfold replaceMdIgnoringInlineCode
    rw [replaceIgnore_noMatch _ (findLeft_inline_none hpreT)]
    exact mdScan_plain ctx
      (fun c hc => ⟨(plainChar_spec (hpre c hc)).1, (plainChar_spec (hpre c hc)).2.2.2.2.1⟩)
  have hfpost : replaceMdIgnoringInlineCode (fun str => mdScan ctx str) post = .ok post := by
    unfold replaceMdIgnoringInlineCode
    rw [replaceIgnore_noMatch _ (findLeft_inline_none hpostT)]
    exact mdScan_plain ctx
      (fun c hc => ⟨(plainChar_spec (hpost c hc)).1, (plainChar_spec (hpost c hc)).2.2.2.2.1⟩)
  unfold rewriteMd replaceMdIgnoringCode replaceMdIgnoringCodeBlocks
  exact replaceIgnore_split3 _ hfl (by simp [fence3]) hmS
    (findLeft_block_none hpreT) (findLeft_block_none hpostT) hfpre hfpost

/-- Concrete context for the C4 counterexample and witness. -/
def c4ctx : MdCtx :=
  { mdPath := "/docs/r.md".toList, cache := [], embed := false, svgMap := fun _ => none }

/-- A file whose only (dangling) directive sits inside a fenced code block. -/
def c4text : Str := "```\n<!--![T](./nope.puml)-->\n```".toList

/-- The filesystem holding that file. -/
def c4fs : Str → Option Str := fun q => if q = "/docs/r.md".toList then some c4text else none

/-- C4 counterexample: this documentation file contains a hidden directive
whose referenced path (`./nope.puml`, never registered — the cache is empty),
yet the rewrite pass succeeds with no dangling-reference error and the file is
written (with identical content), because the directive lies inside a fenced
code block.  The claim, quantified over every file containing such a
directive, is therefore false as stated. -/
theorem C4_counterexample :
    lookupC c4ctx.cache (resolveP (dirnameP c4ctx.mdPath) ("./nope.puml".toList)) = none
    ∧ ∃ g : Str → Option Str, processMdFile c4fs c4ctx = .ok g ∧
        g ("/docs/r.md".toList) = some c4text := by
  have hmid : c4text =
      [] ++ ((fence3 ++ ("\n<!--![T](./nope.puml)-->\n".toList) ++ fence3) ++ []) := by
    decide
  have hrw : rewriteMd c4ctx c4text = .ok c4text := by
    rw [hmid]
    exact rewriteMd_fence c4ctx (by decide) (by decide) (by decide)
  refine ⟨rfl, fun q => if q = c4ctx.mdPath then some c4text else c4fs q, ?_, ?_⟩
  · unfold processMdFile
    rw [show ((c4fs c4ctx.mdPath).getD []) = c4text from by decide]
    rw [hrw]
  · simp [c4ctx]

/-- The same dangling directive placed in prose. -/
def c4wfs : Str → Option Str :=
  fun q => if q = "/docs/r.md".toList then some ("a <!--![T](./nope.puml)--> b".toList) else none

/-- Witness for the amended C4 at a concrete prose document: error, no write. -/
theorem C4_dangling_reference_error_witness :
    processMdFile c4wfs c4ctx = .error () :=
  C4_dangling_reference_error c4wfs c4ctx ("a ".toList) ['!'] 'T' [] '.'
    ("/nope.puml".toList) (" b".toList) rfl
    (by decide) (by decide) (Or.inr rfl) (by decide) (by decide) (by decide)
    (by decide) (by decide) (by decide) rfl

/-- A lone backtick pair opens inline code only when followed by another
backtick on the line; a fenced-block match additionally needs three. -/
theorem blockMatchAt_cons_tick {x : Str} (h : x.head? ≠ some '\x60') :
    blockMatchAt ('\x60' :: x) = none := by
  have hnp : ¬ (("\x60\x60\x60".toList).isPrefixOf ('\x60' :: x) = true) := by
    rw [List.isPrefixOf_iff_prefix]
    intro hpre
    rw [show ("\x60\x60\x60".toList) = '\x60' :: '\x60' :: ['\x60'] from rfl] at hpre
    rw [List.cons_prefix_cons] at hpre
    obtain ⟨-, hpre⟩ := hpre
    cases x with
    | nil => simp at hpre
    | cons c t =>
      rw [List.cons_prefix_cons] at hpre
      exact h (by simp [hpre.1.symm])
  unfold blockMatchAt stripL
  rw [if_neg hnp]

/-- The inline-code regex at a backtick head. -/
theorem inlineMatchAt_tick (t : Str) :
    inlineMatchAt ('\x60' :: t) = (tickClose t).map (fun k => 1 + k + 1) := rfl

/-- An inline code span between plain prose passes through the Document
Rewriter verbatim, whatever its (backtick- and newline-free) body contains. -/
theorem rewriteMd_inline_span (ctx : MdCtx) {a b c' : Str}
    (hbne : b ≠ [])
    (ha : ∀ c ∈ a, plainChar c = true)
    (hb : ∀ c ∈ b, c ≠ '\x60' ∧ c ≠ '\n')
    (hc : ∀ c ∈ c', plainChar c = true) :
    rewriteMd ctx (a ++ (('\x60' :: (b ++ ['\x60'])) ++ c')) =
      .ok (a ++ (('\x60' :: (b ++ ['\x60'])) ++ c')) := by
  have haT : ∀ c ∈ a, c ≠ '\x60' :=
    fun c hc0 => (plainChar_spec (ha c hc0)).2.2.2.2.2.2
  have hcT : ∀ c ∈ c', c ≠ '\x60' :=
    fun c hc0 => (plainChar_spec (hc c hc0)).2.2.2.2.2.2
  have hbT : ∀ c ∈ b, c ≠ '\x60' := fun c hc0 => (hb c hc0).1
  -- block layer: no fenced match anywhere
  have hflc : findLeft blockMatchAt c' = none := findLeft_block_none hcT
  have hbmc : blockMatchAt ('\x60' :: c') = none := by
    refine blockMatchAt_cons_tick ?_
    cases c' with
    | nil => simp
    | cons e u =>
      simp only [List.head?_cons, ne_eq, Option.some.injEq]
      exact hcT e (by simp)
  have hfl2 : findLeft blockMatchAt (b ++ ('\x60' :: c')) = none := by
    rw [findLeft_append _ (fun q hq hsuf => ?_)]
    · rw [findLeft, hbmc, hflc]
      rfl
    · cases q with
      | nil => exact absurd rfl hq
      | cons d u =>
        refine blockMatchAt_none ?_
        intro hcontra
        simp only [List.cons_append, List.head?_cons, Option.some.injEq] at hcontra
        exact hbT d (head_mem_of_suffix rfl hsuf) hcontra
  have hbmX : blockMatchAt ('\x60' :: (b ++ ('\x60' :: c'))) = none := by
    refine blockMatchAt_cons_tick ?_
    cases b with
    | nil => exact absurd rfl hbne
    | cons d b0 =>
      simp only [List.cons_append, List.head?_cons, ne_eq, Option.some.injEq]
      exact hbT d (by simp)
  have hflX : findLeft blockMatchAt (('\x60' :: (b ++ ['\x60'])) ++ c') = none := by
    rw [show (('\x60' :: (b ++ ['\x60'])) ++ c') = '\x60' :: (b ++ ('\x60' :: c')) from by
      simp]
    rw [findLeft, hbmX, hfl2]
    rfl
  have hflb : findLeft blockMatchAt
      (a ++ (('\x60' :: (b ++ ['\x60'])) ++ c')) = none := by
    rw [findLeft_append _ (fun q hq hsuf => ?_)]
    · rw [hflX]
    · cases q with
      | nil => exact absurd rfl hq
      | cons d u =>
        refine blockMatchAt_none ?_
        intro hcontra
        simp only [List.cons_append, List.head?_cons, Option.some.injEq] at hcontra
        exact haT d (head_mem_of_suffix rfl hsuf) hcontra
  -- inline layer: the span is the leftmost match
  have hlen : ('\x60' :: (b ++ ['\x60'])).length = 1 + b.length + 1 := by
    simp
    omega
  have hXc : inlineMatchAt (('\x60' :: (b ++ ['\x60'])) ++ c') =
      some (1 + b.length + 1) := by
    rw [show (('\x60' :: (b ++ ['\x60'])) ++ c') = '\x60' :: (b ++ ('\x60' :: c')) from by
      simp]
    rw [inlineMatchAt_tick, tickClose_at c' hb]
    rfl
  have hflin : findLeft inlineMatchAt (('\x60' :: (b ++ ['\x60'])) ++ c') =
      some ([], '\x60' :: (b ++ ['\x60']), c') := by
    rw [findLeft_head_some (by simp) hXc]
    rw [List.take_left' hlen, List.drop_left' hlen]
  have hfl : findLeft inlineMatchAt
      (a ++ (('\x60' :: (b ++ ['\x60'])) ++ c')) =
      some (a, '\x60' :: (b ++ ['\x60']), c') := by
    rw [findLeft_append _ (fun q hq hsuf => ?_)]
    · rw [hflin]
      simp
    · cases q with
      | nil => exact absurd rfl hq
      | cons d u =>
        refine inlineMatchAt_none ?_
        intro hcontra
        simp only [List.cons_append, List.head?_cons, Option.some.injEq] at hcontra
        exact haT d (head_mem_of_suffix rfl hsuf) hcontra
  have hX0 : inlineMatchAt ('\x60' :: (b ++ ['\x60'])) = some (1 + b.length + 1) := by
    rw [inlineMatchAt_tick, tickClose_at ([] : Str) hb]
    rfl
  have hmS : (findLeft inlineMatchAt ('\x60' :: (b ++ ['\x60']))).isSome = true := by
    rw [findLeft_head_some (by simp) hX0]
    rfl
  have hfpre : mdScan ctx a = .ok a :=
    mdScan_plain ctx
      (fun c hc0 => ⟨(plainChar_spec (ha c hc0)).1, (plainChar_spec (ha c hc0)).2.2.2.2.1⟩)
  have hfpost : mdScan ctx c' = .ok c' :=
    mdScan_plain ctx
      (fun c hc0 => ⟨(plainChar_spec (hc c hc0)).1, (plainChar_spec (hc c hc0)).2.2.2.2.1⟩)
  unfold rewriteMd replaceMdIgnoringCode replaceMdIgnoringCodeBlocks
  rw [replaceIgnore_noMatch _ hflb]
  unfold replaceMdIgnoringInlineCode
  exact replaceIgnore_split3 _ hfl (by simp) hmS
    (findLeft_inline_none haT) (findLeft_inline_none hcT) hfpre hfpost

/-- C6: hidden directives sheltered by code formatting are never rewritten.
For every documentation context, (1) a fenced code block between plain prose
— whatever its backtick-free body holds, well-formed directive or not — and
(2) an inline code span between plain prose — whatever its nonempty,
backtick- and newline-free body holds — pass through the Document Rewriter
byte-for-byte unchanged. -/
theorem C6_code_regions_untouched (ctx : MdCtx) :
    (∀ pre mid post : Str,
      (∀ c ∈ pre, plainChar c = true) →
      (∀ c ∈ mid, c ≠ '\x60') →
      (∀ c ∈ post, plainChar c = true) →
      rewriteMd ctx (pre ++ ((fence3 ++ mid ++ fence3) ++ post)) =
        .ok (pre ++ ((fence3 ++ mid ++ fence3) ++ post)))
    ∧ (∀ a b c' : Str, b ≠ [] →
      (∀ c ∈ a, plainChar c = true) →
      (∀ c ∈ b, c ≠ '\x60' ∧ c ≠ '\n') →
      (∀ c ∈ c', plainChar c = true) →
      rewriteMd ctx (a ++ (('\x60' :: (b ++ ['\x60'])) ++ c')) =
        .ok (a ++ (('\x60' :: (b ++ ['\x60'])) ++ c'))) :=
  ⟨fun _ _ _ h1 h2 h3 => rewriteMd_fence ctx h1 h2 h3,
   fun _ _ _ h0 h1 h2 h3 => rewriteMd_inline_span ctx h0 h1 h2 h3⟩

/-- Concrete context for the C6 witness: the cache is empty, so the sheltered
directive is even dangling — yet nothing is rewritten and nothing throws. -/
def c6ctx : MdCtx :=
  { mdPath := "/docs/w.md".toList, cache := [], embed := false, svgMap := fun _ => none }

/-- A directive inside a fenced code block. -/
def c6fenceText : Str := "p\n".toList ++
  ((fence3 ++ ("<!--![T](./x.puml)-->".toList) ++ fence3) ++ ("\nq".toList))

/-- A directive inside an inline code span. -/
def c6inlineText : Str := "a ".toList ++
  (('\x60' :: (("<!--![T](./x.puml)-->".toList) ++ ['\x60'])) ++ (" z".toList))

/-- Witness for C6 at concrete documents. -/
theorem C6_code_regions_untouched_witness :
    rewriteMd c6ctx c6fenceText = .ok c6fenceText ∧
    rewriteMd c6ctx c6inlineText = .ok c6inlineText :=
  ⟨(C6_code_regions_untouched c6ctx).1 ("p\n".toList)
      ("<!--![T](./x.puml)-->".toList) ("\nq".toList)
      (by decide) (by decide) (by decide),
   (C6_code_regions_untouched c6ctx).2 ("a ".toList)
      ("<!--![T](./x.puml)-->".toList) (" z".toList)
      (by decide) (by decide) (by decide) (by decide)⟩

/-- Two consecutive backticks still miss the fenced-block opener when the
next character is not a third backtick. -/
theorem blockMatchAt_cons2_tick {x : Str} (h : x.head? ≠ some '\x60') :
    blockMatchAt ('\x60' :: ('\x60' :: x)) = none := by
  have hnp : ¬ (("\x60\x60\x60".toList).isPrefixOf ('\x60' :: ('\x60' :: x)) = true) := by
    rw [List.isPrefixOf_iff_prefix]
    intro hpre0
    rw [show ("\x60\x60\x60".toList) = '\x60' :: '\x60' :: ['\x60'] from rfl] at hpre0
    rw [List.cons_prefix_cons, List.cons_prefix_cons] at hpre0
    obtain ⟨-, -, hpre0⟩ := hpre0
    cases x with
    | nil => simp at hpre0
    | cons c t =>
      rw [List.cons_prefix_cons] at hpre0
      exact h (by simp [hpre0.1.symm])
  unfold blockMatchAt stripL
  rw [if_neg hnp]

/-- `replaceIgnore` on a gap–match–gap split where both match-free gaps map
through the replacement function (to possibly different text). -/
theorem replaceIgnore_split3_gen {mAt : Str → Option Nat} (f : Str → Except Unit Str)
    {pre m post preOut postOut : Str}
    (hfl : findLeft mAt (pre ++ (m ++ post)) = some (pre, m, post))
    (hm : m ≠ [])
    (hmS : (findLeft mAt m).isSome = true)
    (hpre : findLeft mAt pre = none)
    (hpost : findLeft mAt post = none)
    (hfpre : f pre = .ok preOut) (hfpost : f post = .ok postOut) :
    replaceIgnore mAt f (pre ++ (m ++ post)) = .ok (preOut ++ (m ++ postOut)) := by
  unfold replaceIgnore splitBy
  rw [splitByF, hfl]
  simp only [if_neg hm]
  rw [splitByF_none _ hpost]
  rw [mapPieces_cons_go hpre hfpre, mapPieces_cons_keep hmS,
    mapPieces_cons_go hpost hfpost]
  rw [show mapPieces mAt f [] = Except.ok [] from rfl]
  simp

/-- After an opening fence with no later closing fence, the block layer finds
no match at all, the inline layer consumes only the first two backticks as an
empty inline span, and everything from the third backtick on is scanned as
ordinary prose. -/
theorem rewriteMd_after_unclosed_fence (ctx : MdCtx) {pre r0 out0 : Str}
    (hpre : ∀ c ∈ pre, plainChar c = true)
    (hr0 : ∀ c ∈ r0, c ≠ '\x60')
    (hhead : r0.head? ≠ some '\x60')
    (hscan : mdScan ctx ('\x60' :: r0) = .ok ('\x60' :: out0)) :
    rewriteMd ctx (pre ++ (fence3 ++ r0)) = .ok (pre ++ (fence3 ++ out0)) := by
  have hpreT : ∀ c ∈ pre, c ≠ '\x60' :=
    fun c h => (plainChar_spec (hpre c h)).2.2.2.2.2.2
  have hbm3 : blockMatchAt ('\x60' :: ('\x60' :: ('\x60' :: r0))) = none := by
    unfold blockMatchAt stripL
    have hp : ("\x60\x60\x60".toList).isPrefixOf ('\x60' :: ('\x60' :: ('\x60' :: r0))) = true := by
      rw [List.isPrefixOf_iff_prefix]
      exact ⟨r0, rfl⟩
    rw [if_pos hp]
    rw [show (('\x60' :: ('\x60' :: ('\x60' :: r0))).drop
      (("\x60\x60\x60".toList).length)) = r0 from rfl]
    show Option.map (fun k => 3 + k + 3) (findClose3 r0) = none
    rw [findClose3_none hr0]
    rfl
  have hflX : findLeft blockMatchAt (fence3 ++ r0) = none := by
    rw [show fence3 ++ r0 = '\x60' :: ('\x60' :: ('\x60' :: r0)) from rfl]
    rw [findLeft, hbm3]
    rw [findLeft, blockMatchAt_cons2_tick hhead]
    rw [findLeft, blockMatchAt_cons_tick hhead]
    rw [findLeft_block_none hr0]
    rfl
  have hflb : findLeft blockMatchAt (pre ++ (fence3 ++ r0)) = none := by
    rw [findLeft_append _ (fun q hq hsuf => ?_)]
    · rw [hflX]
    · cases q with
      | nil => exact absurd rfl hq
      | cons d u =>
        refine blockMatchAt_none ?_
        intro hcontra
        simp only [List.cons_append, List.head?_cons, Option.some.injEq] at hcontra
        exact hpreT d (head_mem_of_suffix rfl hsuf) hcontra
  have hpostI : findLeft inlineMatchAt ('\x60' :: r0) = none := by
    rw [findLeft, inlineMatchAt_tick, tickClose_none hr0, Option.map_none',
      findLeft_inline_none hr0]
    rfl
  have him : inlineMatchAt ('\x60' :: ('\x60' :: ('\x60' :: r0))) = some 2 := rfl
  have hfm : findLeft inlineMatchAt ('\x60' :: ('\x60' :: ('\x60' :: r0))) =
      some ([], ['\x60', '\x60'], '\x60' :: r0) := by
    rw [findLeft_head_some (by simp) him]
    rfl
  have hflin : findLeft inlineMatchAt (pre ++ (['\x60', '\x60'] ++ ('\x60' :: r0))) =
      some (pre, ['\x60', '\x60'], '\x60' :: r0) := by
    rw [show (['\x60', '\x60'] ++ ('\x60' :: r0)) =
      '\x60' :: ('\x60' :: ('\x60' :: r0)) from rfl]
    rw [findLeft_append _ (fun q hq hsuf => ?_)]
    · rw [hfm]
      simp
    · cases q with
      | nil => exact absurd rfl hq
      | cons d u =>
        refine inlineMatchAt_none ?_
        intro hcontra
        simp only [List.cons_append, List.head?_cons, Option.some.injEq] at hcontra
        exact hpreT d (head_mem_of_suffix rfl hsuf) hcontra
  have hmS2 : (findLeft inlineMatchAt ['\x60', '\x60']).isSome = true := rfl
  have hfpre2 : mdScan ctx pre = .ok pre :=
    mdScan_plain ctx
      (fun c h => ⟨(plainChar_spec (hpre c h)).1, (plainChar_spec (hpre c h)).2.2.2.2.1⟩)
  have hmain : replaceIgnore inlineMatchAt (fun str => mdScan ctx str)
      (pre ++ (['\x60', '\x60'] ++ ('\x60' :: r0))) =
      .ok (pre ++ (['\x60', '\x60'] ++ ('\x60' :: out0))) :=
    replaceIgnore_split3_gen _ hflin (by simp) hmS2
      (findLeft_inline_none hpreT) hpostI hfpre2 hscan
  unfold rewriteMd replaceMdIgnoringCode replaceMdIgnoringCodeBlocks
  rw [replaceIgnore_noMatch _ hflb]
  unfold replaceMdIgnoringInlineCode
  exact hmain

/-- C10: an opening fenced-code delimiter with no later closing delimiter
protects nothing.  A well-formed hidden directive after the unclosed fence —
whose replacement the rewrite callback resolves to `rep` — is rewritten like
ordinary prose; only the two-backtick prefix of the dangling fence is treated
(vacuously, as an empty inline span) by the ignore policy, and it is emitted
unchanged. -/
theorem C10_unclosed_fence_rewrites (ctx : MdCtx) (pre t1 t2 : Str)
    (bang : Str) (i : Char) (inn : Str) (c0 : Char) (ch0 : Str) (rep : Str)
    (hpre : ∀ c ∈ pre, plainChar c = true)
    (ht1 : ∀ c ∈ t1, plainChar c = true)
    (ht2 : ∀ c ∈ t2, plainChar c = true)
    (hbang : bang = [] ∨ bang = ['!'])
    (hin : ∀ c ∈ i :: inn, plainChar c = true)
    (hpc : ∀ c ∈ c0 :: ch0, plainChar c = true)
    (hp6 : 6 ≤ (c0 :: ch0).length)
    (hps : (c0 :: ch0).drop ((c0 :: ch0).length - 5) = pumlSuffix)
    (hrep : mkRepl ctx (bang ++ '[' :: ((i :: inn) ++ [']'])) (c0 :: ch0) = .ok rep) :
    rewriteMd ctx (pre ++ (fence3 ++
      (t1 ++ (coreDirective bang (i :: inn) (c0 :: ch0) ++ t2)))) =
      .ok (pre ++ (fence3 ++ (t1 ++ (rep ++ t2)))) := by
  have ht1T : ∀ c ∈ t1, c ≠ '\x60' :=
    fun c h => (plainChar_spec (ht1 c h)).2.2.2.2.2.2
  have ht2T : ∀ c ∈ t2, c ≠ '\x60' :=
    fun c h => (plainChar_spec (ht2 c h)).2.2.2.2.2.2
  have hcoreT : ∀ c ∈ coreDirective bang (i :: inn) (c0 :: ch0), c ≠ '\x60' :=
    coreDirective_no_tick hbang
      (fun c h => (plainChar_spec (hin c h)).2.2.2.2.2.2)
      (fun c h => (plainChar_spec (hpc c h)).2.2.2.2.2.2)
  have hr0 : ∀ c ∈ t1 ++ (coreDirective bang (i :: inn) (c0 :: ch0) ++ t2),
      c ≠ '\x60' :=
    forall_mem_append ht1T (forall_mem_append hcoreT ht2T)
  have hhead : (t1 ++ (coreDirective bang (i :: inn) (c0 :: ch0) ++ t2)).head? ≠
      some '\x60' := by
    cases t1 with
    | nil =>
      rw [List.nil_append]
      rw [show ((coreDirective bang (i :: inn) (c0 :: ch0) ++ t2).head?) =
        some '<' from rfl]
      decide
    | cons d u =>
      simp only [List.cons_append, List.head?_cons, ne_eq, Option.some.injEq]
      exact ht1T d (by simp)
  have ht2scan : mdScan ctx t2 = .ok t2 :=
    mdScan_plain ctx
      (fun c h => ⟨(plainChar_spec (ht2 c h)).1, (plainChar_spec (ht2 c h)).2.2.2.2.1⟩)
  have hscan : mdScan ctx
      ('\x60' :: (t1 ++ (coreDirective bang (i :: inn) (c0 :: ch0) ++ t2))) =
      .ok ('\x60' :: (t1 ++ (rep ++ t2))) := by
    have hs0 : ∀ c ∈ '\x60' :: t1, c ≠ '[' ∧ c ≠ '<' := by
      intro c h
      rcases List.mem_cons.mp h with h1 | h2
      · subst h1
        exact ⟨by decide, by decide⟩
      · exact ⟨(plainChar_spec (ht1 c h2)).1, (plainChar_spec (ht1 c h2)).2.2.2.2.1⟩
    have hstep := mdScan_single ctx ('\x60' :: t1) bang i inn c0 ch0 t2 hs0 hbang
      (fun c h => (plainChar_spec (hin c h)).2.1)
      (fun c h => (plainChar_spec (hpc c h)).2.2.2.1)
      hp6 hps
    rw [hrep, ht2scan] at hstep
    simpa using hstep
  exact rewriteMd_after_unclosed_fence ctx hpre hr0 hhead hscan

/-- Concrete entry for the C10 witness. -/
def c10entry : Entry := { encodedData := "E".toList, url := "U".toList, data := "D".toList }

/-- Concrete context for the C10 witness: `./a.puml` is registered. -/
def c10ctx : MdCtx :=
  { mdPath := "/docs/m.md".toList,
    cache := [("/docs/a.puml".toList, .done c10entry)],
    embed := false,
    svgMap := fun _ => none }

/-- Witness for C10 at a concrete document with an unclosed fence: the
directive after the dangling fence is rewritten. -/
theorem C10_unclosed_fence_rewrites_witness :
    rewriteMd c10ctx ("p\n\x60\x60\x60text <!--![T](./a.puml)-->\nq".toList) =
      .ok ("p\n\x60\x60\x60text [![T](U)](U)<!--![T](./a.puml)-->\nq".toList) :=
  C10_unclosed_fence_rewrites c10ctx ("p\n".toList) ("text ".toList) ("\nq".toList)
    ['!'] 'T' [] '.' ("/a.puml".toList)
    ("[![T](U)](U)<!--![T](./a.puml)-->".toList)
    (by decide) (by decide) (by decide) (Or.inr rfl) (by decide) (by decide)
    (by decide) (by decide) rfl

/-- On text without `]` the greedy `.*` search never closes alternative A. -/
theorem gTail_aClose_none {k : Str → Option (Str × Str × Str)} {s : Str}
    (h : ∀ c ∈ s, c ≠ ']') : gTail (aClose k) s = none := by
  refine gTail_none (fun q hqs => ?_)
  cases q with
  | nil => exact aClose_none_head (by simp)
  | cons d u =>
    refine aClose_none_head ?_
    intro hcontra
    simp only [List.head?_cons, Option.some.injEq] at hcontra
    exact h d (head_mem_of_suffix rfl hqs) hcontra

/-- Key second-run fact: from the closing `](url)` of an emitted visible link
the greedy search first tries the deeper `](path)` inside the anchor comment
(where the continuation dies on `-->`), then succeeds exactly at `](url)`
with the continuation consuming the whole anchor as a fresh directive. -/
theorem gTail_aClose_hit (f : Nat) (bang : Str) (i : Char) (inn : Str)
    (u0 : Char) (url' : Str) (c0 : Char) (ch0 s1 : Str)
    (hbang : bang = [] ∨ bang = ['!'])
    (hin : ∀ c ∈ i :: inn, c ≠ ']' ∧ jsDot c = true)
    (hurl : ∀ c ∈ u0 :: url', c ≠ ')' ∧ c ≠ ']' ∧ jsDot c = true)
    (hpc : ∀ c ∈ c0 :: ch0, c ≠ ')' ∧ c ≠ ']' ∧ jsDot c = true)
    (hp6 : 6 ≤ (c0 :: ch0).length)
    (hps : (c0 :: ch0).drop ((c0 :: ch0).length - 5) = pumlSuffix)
    (hs1 : ∀ c ∈ s1, c ≠ ']') :
    gTail (aClose (fun r => matchFull (f + 1) r))
      (']' :: ('(' :: ((u0 :: url') ++ (')' ::
        (coreDirective bang (i :: inn) (c0 :: ch0) ++ s1))))) =
      some (bang ++ '[' :: ((i :: inn) ++ [']']), c0 :: ch0, s1) := by
  have hshapeZ : ('(' : Char) :: ((u0 :: url') ++ (')' ::
      (coreDirective bang (i :: inn) (c0 :: ch0) ++ s1))) =
      ('(' :: ((u0 :: url') ++ (')' :: ('<' :: ('!' :: ('-' :: ('-' ::
        (bang ++ ('[' :: (i :: inn)))))))))) ++
      (']' :: ('(' :: ((c0 :: ch0) ++ (')' :: ('-' :: ('-' :: ('>' :: s1))))))) := by
    simp only [coreDirective]
    rw [show ("<!--".toList) = ('<' :: ('!' :: ('-' :: ('-' :: ([] : Str))))) from rfl,
      show (")-->".toList) = (')' :: ('-' :: ('-' :: ('>' :: ([] : Str))))) from rfl]
    simp
  have hA1chars : ∀ c ∈ ('(' :: ((u0 :: url') ++ (')' :: ('<' :: ('!' :: ('-' :: ('-' ::
      (bang ++ ('[' :: (i :: inn)))))))))), c ≠ ']' ∧ jsDot c = true := by
    intro c hc
    rcases List.mem_cons.mp hc with rfl | hc
    · exact ⟨by decide, by decide⟩
    rcases List.mem_append.mp hc with hc | hc
    · exact ⟨(hurl c hc).2.1, (hurl c hc).2.2⟩
    rcases List.mem_cons.mp hc with rfl | hc
    · exact ⟨by decide, by decide⟩
    rcases List.mem_cons.mp hc with rfl | hc
    · exact ⟨by decide, by decide⟩
    rcases List.mem_cons.mp hc with rfl | hc
    · exact ⟨by decide, by decide⟩
    rcases List.mem_cons.mp hc with rfl | hc
    · exact ⟨by decide, by decide⟩
    rcases List.mem_cons.mp hc with rfl | hc
    · exact ⟨by decide, by decide⟩
    rcases List.mem_append.mp hc with hc | hc
    · rcases hbang with rfl | rfl
      · simp at hc
      · rcases List.mem_cons.mp hc with rfl | hc
        · exact ⟨by decide, by decide⟩
        · simp at hc
    rcases List.mem_cons.mp hc with rfl | hc
    · exact ⟨by decide, by decide⟩
    · exact ⟨(hin c hc).1, (hin c hc).2⟩
  have hZtailR : ∀ c ∈ ('(' :: ((c0 :: ch0) ++ (')' :: ('-' :: ('-' :: ('>' :: s1)))))),
      c ≠ ']' := by
    intro c hc
    rcases List.mem_cons.mp hc with rfl | hc
    · decide
    rcases List.mem_append.mp hc with hc | hc
    · exact (hpc c hc).2.1
    rcases List.mem_cons.mp hc with rfl | hc
    · decide
    rcases List.mem_cons.mp hc with rfl | hc
    · decide
    rcases List.mem_cons.mp hc with rfl | hc
    · decide
    rcases List.mem_cons.mp hc with rfl | hc
    · decide
    · exact hs1 c hc
  have hktail : matchFull (f + 1) ('-' :: ('-' :: ('>' :: s1))) = none :=
    matchFull_none (by simp) (by simp)
  have hZnone : gTail (aClose (fun r => matchFull (f + 1) r))
      ('(' :: ((c0 :: ch0) ++ (')' :: ('-' :: ('-' :: ('>' :: s1)))))) = none :=
    gTail_aClose_none hZtailR
  have h2 : gTail (aClose (fun r => matchFull (f + 1) r))
      (']' :: ('(' :: ((c0 :: ch0) ++ (')' :: ('-' :: ('-' :: ('>' :: s1))))))) = none := by
    rw [gTail, if_pos (by decide), hZnone]
    show aClose (fun r => matchFull (f + 1) r)
      (']' :: ('(' :: ((c0 :: ch0) ++ (')' :: ('-' :: ('-' :: ('>' :: s1))))))) = none
    rw [aClose_at c0 ch0 _ (fun c h => (hpc c h).1)]
    exact hktail
  have h3 : gTail (aClose (fun r => matchFull (f + 1) r))
      ('(' :: ((u0 :: url') ++ (')' ::
        (coreDirective bang (i :: inn) (c0 :: ch0) ++ s1)))) = none := by
    rw [hshapeZ]
    rw [gTail_skip _ (fun c h => (hA1chars c h).2) (fun q hq hsuf => ?_)]
    · exact h2
    · cases q with
      | nil => exact absurd rfl hq
      | cons d u =>
        refine aClose_none_head ?_
        intro hcontra
        simp only [List.cons_append, List.head?_cons, Option.some.injEq] at hcontra
        exact (hA1chars d (head_mem_of_suffix rfl hsuf)).1 hcontra
  rw [gTail, if_pos (by decide), h3]
  show aClose (fun r => matchFull (f + 1) r)
    (']' :: ('(' :: ((u0 :: url') ++ (')' ::
      (coreDirective bang (i :: inn) (c0 :: ch0) ++ s1))))) = _
  rw [aClose_at u0 url' _ (fun c h => (hurl c h).1)]
  exact matchFull_at_core f bang i inn c0 ch0 s1 hbang
    (fun c h => (hin c h).1) (fun c h => (hpc c h).1) hp6 hps

/-- At the start of an emitted visible hyperlink `[text](url)<!--…-->`, the
directive regex re-matches: the leading group consumes `[text](url)` and the
core consumes the whole anchor comment, with identical captures. -/
theorem matchFull_at_replLink (f : Nat) (i : Char) (inn : Str) (u0 : Char)
    (url' : Str) (c0 : Char) (ch0 s1 : Str)
    (hin : ∀ c ∈ i :: inn, c ≠ ']' ∧ jsDot c = true)
    (hurl : ∀ c ∈ u0 :: url', c ≠ ')' ∧ c ≠ ']' ∧ jsDot c = true)
    (hpc : ∀ c ∈ c0 :: ch0, c ≠ ')' ∧ c ≠ ']' ∧ jsDot c = true)
    (hp6 : 6 ≤ (c0 :: ch0).length)
    (hps : (c0 :: ch0).drop ((c0 :: ch0).length - 5) = pumlSuffix)
    (hs1 : ∀ c ∈ s1, c ≠ ']') :
    matchFull (f + 2)
      ((('[' :: ((i :: inn) ++ [']'])) ++ '(' :: ((u0 :: url') ++ [')']) ++
        anchorOf ('[' :: ((i :: inn) ++ [']'])) (c0 :: ch0)) ++ s1) =
      some ('[' :: ((i :: inn) ++ [']']), c0 :: ch0, s1) := by
  have hshape : ((('[' :: ((i :: inn) ++ [']'])) ++ '(' :: ((u0 :: url') ++ [')']) ++
      anchorOf ('[' :: ((i :: inn) ++ [']'])) (c0 :: ch0)) ++ s1) =
      '[' :: ((i :: inn) ++ (']' :: ('(' :: ((u0 :: url') ++ (')' ::
        (coreDirective [] (i :: inn) (c0 :: ch0) ++ s1)))))) := by
    simp [anchorOf, coreDirective]
  rw [hshape, matchFull]
  have hA : matchA (fun r => matchFull (f + 1) r)
      ('[' :: ((i :: inn) ++ (']' :: ('(' :: ((u0 :: url') ++ (')' ::
        (coreDirective [] (i :: inn) (c0 :: ch0) ++ s1))))))) =
      some ('[' :: ((i :: inn) ++ [']']), c0 :: ch0, s1) := by
    show gTail (aClose (fun r => matchFull (f + 1) r))
      ((i :: inn) ++ (']' :: ('(' :: ((u0 :: url') ++ (')' ::
        (coreDirective [] (i :: inn) (c0 :: ch0) ++ s1)))))) = _
    rw [gTail_skip _ (fun c h => (hin c h).2) (fun q hq hsuf => ?_)]
    · have := gTail_aClose_hit f [] i inn u0 url' c0 ch0 s1 (Or.inl rfl)
        hin hurl hpc hp6 hps hs1
      simpa using this
    · cases q with
      | nil => exact absurd rfl hq
      | cons d u =>
        refine aClose_none_head ?_
        intro hcontra
        simp only [List.cons_append, List.head?_cons, Option.some.injEq] at hcontra
        exact (hin d (head_mem_of_suffix rfl hsuf)).1 hcontra
  rw [hA]

/-- At the start of an emitted image-with-link `[![alt](url)](url)<!--…-->`,
the directive regex re-matches with identical captures: the deepest viable
closing for the leading group is the outer `](url)`, whose continuation
consumes the whole anchor comment. -/
theorem matchFull_at_replImg (f : Nat) (i : Char) (inn : Str) (u0 : Char)
    (url' : Str) (c0 : Char) (ch0 s1 : Str)
    (hin : ∀ c ∈ i :: inn, c ≠ ']' ∧ jsDot c = true)
    (hurl : ∀ c ∈ u0 :: url', c ≠ ')' ∧ c ≠ ']' ∧ jsDot c = true)
    (hpc : ∀ c ∈ c0 :: ch0, c ≠ ')' ∧ c ≠ ']' ∧ jsDot c = true)
    (hp6 : 6 ≤ (c0 :: ch0).length)
    (hps : (c0 :: ch0).drop ((c0 :: ch0).length - 5) = pumlSuffix)
    (hs1 : ∀ c ∈ s1, c ≠ ']') :
    matchFull (f + 2)
      (('[' :: (('!' :: ('[' :: ((i :: inn) ++ [']']))) ++ '(' :: ((u0 :: url') ++ ")](".toList ++ (u0 :: url') ++ [')']))) ++ anchorOf ('!' :: ('[' :: ((i :: inn) ++ [']']))) (c0 :: ch0) ++ s1) =
      some ('!' :: ('[' :: ((i :: inn) ++ [']'])), c0 :: ch0, s1) := by
  have hshape : (('[' :: (('!' :: ('[' :: ((i :: inn) ++ [']']))) ++ '(' :: ((u0 :: url') ++ ")](".toList ++ (u0 :: url') ++ [')']))) ++ anchorOf ('!' :: ('[' :: ((i :: inn) ++ [']']))) (c0 :: ch0) ++ s1) =
      '[' :: (('!' :: ('[' :: (i :: inn))) ++ (']' :: ('(' :: ((u0 :: url') ++ (')' ::
        (']' :: ('(' :: ((u0 :: url') ++ (')' ::
          (coreDirective ['!'] (i :: inn) (c0 :: ch0) ++ s1)))))))))) := by
    rw [show (")](".toList) = (')' :: (']' :: ('(' :: ([] : Str)))) from rfl]
    simp [anchorOf, coreDirective]
  rw [hshape, matchFull]
  have hA : matchA (fun r => matchFull (f + 1) r)
      ('[' :: (('!' :: ('[' :: (i :: inn))) ++ (']' :: ('(' :: ((u0 :: url') ++ (')' ::
        (']' :: ('(' :: ((u0 :: url') ++ (')' ::
          (coreDirective ['!'] (i :: inn) (c0 :: ch0) ++ s1))))))))))) =
      some ('!' :: ('[' :: ((i :: inn) ++ [']'])), c0 :: ch0, s1) := by
    show gTail (aClose (fun r => matchFull (f + 1) r))
      (('!' :: ('[' :: (i :: inn))) ++ (']' :: ('(' :: ((u0 :: url') ++ (')' ::
        (']' :: ('(' :: ((u0 :: url') ++ (')' ::
          (coreDirective ['!'] (i :: inn) (c0 :: ch0) ++ s1)))))))))) = _
    have hxsA : ∀ c ∈ ('!' :: ('[' :: (i :: inn))), c ≠ ']' ∧ jsDot c = true := by
      intro c hc
      rcases List.mem_cons.mp hc with rfl | hc
      · exact ⟨by decide, by decide⟩
      rcases List.mem_cons.mp hc with rfl | hc
      · exact ⟨by decide, by decide⟩
      · exact ⟨(hin c hc).1, (hin c hc).2⟩
    rw [gTail_skip _ (fun c h => (hxsA c h).2) (fun q hq hsuf => ?_)]
    · rw [gTail, if_pos (by decide)]
      have hZZ : gTail (aClose (fun r => matchFull (f + 1) r))
          ('(' :: ((u0 :: url') ++ (')' :: (']' :: ('(' :: ((u0 :: url') ++ (')' ::
            (coreDirective ['!'] (i :: inn) (c0 :: ch0) ++ s1)))))))) =
          some ('!' :: ('[' :: ((i :: inn) ++ [']'])), c0 :: ch0, s1) := by
        rw [show ('(' :: ((u0 :: url') ++ (')' :: (']' :: ('(' :: ((u0 :: url') ++ (')' ::
            (coreDirective ['!'] (i :: inn) (c0 :: ch0) ++ s1)))))))) =
          ('(' :: ((u0 :: url') ++ [')'])) ++ (']' :: ('(' :: ((u0 :: url') ++ (')' ::
            (coreDirective ['!'] (i :: inn) (c0 :: ch0) ++ s1))))) from by simp]
        have hxsB : ∀ c ∈ ('(' :: ((u0 :: url') ++ [')'])), c ≠ ']' ∧ jsDot c = true := by
          intro c hc
          rcases List.mem_cons.mp hc with rfl | hc
          · exact ⟨by decide, by decide⟩
          rcases List.mem_append.mp hc with hc | hc
          · exact ⟨(hurl c hc).2.1, (hurl c hc).2.2⟩
          rcases List.mem_cons.mp hc with rfl | hc
          · exact ⟨by decide, by decide⟩
          · simp at hc
        rw [gTail_skip _ (fun c h => (hxsB c h).2) (fun q hq hsuf => ?_)]
        · have := gTail_aClose_hit f ['!'] i inn u0 url' c0 ch0 s1 (Or.inr rfl)
            hin hurl hpc hp6 hps hs1
          simpa using this
        · cases q with
          | nil => exact absurd rfl hq
          | cons d u =>
            refine aClose_none_head ?_
            intro hcontra
            simp only [List.cons_append, List.head?_cons, Option.some.injEq] at hcontra
            exact (hxsB d (head_mem_of_suffix rfl hsuf)).1 hcontra
      rw [hZZ]
    · cases q with
      | nil => exact absurd rfl hq
      | cons d u =>
        refine aClose_none_head ?_
        intro hcontra
        simp only [List.cons_append, List.head?_cons, Option.some.injEq] at hcontra
        exact (hxsA d (head_mem_of_suffix rfl hsuf)).1 hcontra
  rw [hA]

/-- One scan step when the directive regex has no match at the head. -/
theorem mdScan_cons_none (ctx : MdCtx) {c : Char} {t o : Str}
    (h : matchFull ((c :: t).length + 1) (c :: t) = none)
    (ho : mdScan ctx t = .ok o) :
    mdScan ctx (c :: t) = .ok (c :: o) := by
  rw [mdScan, h, ho]

/-- One scan step when the directive regex matches at the head. -/
theorem mdScan_cons_some (ctx : MdCtx) {c : Char} {t lt pth rest rep o : Str}
    (h : matchFull ((c :: t).length + 1) (c :: t) = some (lt, pth, rest))
    (hrep : mkRepl ctx lt pth = .ok rep)
    (ho : mdScan ctx rest = .ok o) :
    mdScan ctx (c :: t) = .ok (rep ++ o) := by
  rw [mdScan]
  split
  · rename_i lt1 pth1 rest1 hm
    have hinj := h.symm.trans hm
    simp only [Option.some.injEq, Prod.mk.injEq] at hinj
    obtain ⟨h1, h2, h3⟩ := hinj
    subst h1
    subst h2
    subst h3
    rw [hrep, ho]
  · rename_i hm
    rw [h] at hm
    exact absurd hm (by simp)

/-- A scan step from an arbitrary-fuel matcher fact. -/
theorem mdScan_at (ctx : MdCtx) {s lt pth rest rep o : Str} (hs : s ≠ [])
    (h : ∀ f, matchFull (f + 2) s = some (lt, pth, rest))
    (hrep : mkRepl ctx lt pth = .ok rep)
    (ho : mdScan ctx rest = .ok o) :
    mdScan ctx s = .ok (rep ++ o) := by
  cases s with
  | nil => exact absurd rfl hs
  | cons c t =>
    refine mdScan_cons_some ctx ?_ hrep ho
    rw [show (c :: t).length + 1 = t.length + 2 from by simp]
    exact h t.length

/-- Concrete entry for the C2 theorems. -/
def c2entry : Entry := { encodedData := "E".toList, url := "U".toList, data := "D".toList }

/-- Concrete context for the C2 theorems. -/
def c2ctx : MdCtx :=
  { mdPath := "/docs/r.md".toList,
    cache := [("/docs/a.puml".toList, .done c2entry)],
    embed := false,
    svgMap := fun _ => none }

/-- C2 counterexample: rewriting is not idempotent.  On the document
`[x](<!--[t](./a.puml)-->` the first run rewrites only the directive (the
stray `[x](` prefix does not complete the optional leading group), but on the
first run's output the leading group matches the freshly emitted `[x](`…
no — it matches `[t](U)` only after absorbing the `[x](` prefix into `.*`,
so the second run swallows the prefix and produces strictly different text.
The spec's claim that a second run is byte-identical is false. -/
theorem C2_counterexample :
    rewriteMd c2ctx ("[x](<!--[t](./a.puml)-->".toList) =
        .ok ("[x]([t](U)<!--[t](./a.puml)-->".toList) ∧
      rewriteMd c2ctx ("[x]([t](U)<!--[t](./a.puml)-->".toList) =
        .ok ("[t](U)<!--[t](./a.puml)-->".toList) ∧
      ("[t](U)<!--[t](./a.puml)-->".toList) ≠
        ("[x]([t](U)<!--[t](./a.puml)-->".toList) := by
  have e0 : mdScan c2ctx ([] : Str) = .ok [] := by rw [mdScan]
  have e1 : mdScan c2ctx ("<!--[t](./a.puml)-->".toList) =
      .ok ("[t](U)<!--[t](./a.puml)-->".toList) :=
    @mdScan_cons_some c2ctx '<' ("!--[t](./a.puml)-->".toList) ("[t]".toList)
      ("./a.puml".toList) [] ("[t](U)<!--[t](./a.puml)-->".toList) [] rfl rfl e0
  have e2 : mdScan c2ctx ("(<!--[t](./a.puml)-->".toList) =
      .ok ("([t](U)<!--[t](./a.puml)-->".toList) :=
    @mdScan_cons_none c2ctx '(' ("<!--[t](./a.puml)-->".toList)
      ("[t](U)<!--[t](./a.puml)-->".toList) rfl e1
  have e3 : mdScan c2ctx ("](<!--[t](./a.puml)-->".toList) =
      .ok ("]([t](U)<!--[t](./a.puml)-->".toList) :=
    @mdScan_cons_none c2ctx ']' ("(<!--[t](./a.puml)-->".toList)
      ("([t](U)<!--[t](./a.puml)-->".toList) rfl e2
  have e4 : mdScan c2ctx ("x](<!--[t](./a.puml)-->".toList) =
      .ok ("x]([t](U)<!--[t](./a.puml)-->".toList) :=
    @mdScan_cons_none c2ctx 'x' ("](<!--[t](./a.puml)-->".toList)
      ("]([t](U)<!--[t](./a.puml)-->".toList) rfl e3
  have e5 : mdScan c2ctx ("[x](<!--[t](./a.puml)-->".toList) =
      .ok ("[x]([t](U)<!--[t](./a.puml)-->".toList) :=
    @mdScan_cons_none c2ctx '[' ("x](<!--[t](./a.puml)-->".toList)
      ("x]([t](U)<!--[t](./a.puml)-->".toList) rfl e4
  have f1 : mdScan c2ctx ("[x]([t](U)<!--[t](./a.puml)-->".toList) =
      .ok ("[t](U)<!--[t](./a.puml)-->".toList) :=
    @mdScan_cons_some c2ctx '[' ("x]([t](U)<!--[t](./a.puml)-->".toList)
      ("[t]".toList) ("./a.puml".toList) [] ("[t](U)<!--[t](./a.puml)-->".toList) []
      rfl rfl e0
  refine ⟨?_, ?_, by decide⟩
  · rw [rewriteMd_no_tick c2ctx (by decide)]
    exact e5
  · rw [rewriteMd_no_tick c2ctx (by decide)]
    exact f1

/-- C2 amended: for a document whose directive is surrounded by plain prose
(no markdown-significant characters in the prose, line-terminator-free
captures — JavaScript's dot also excludes carriage return and the unicode
line separators — a
registered path, embed off), the first rewrite emits visible content plus
the verbatim anchor comment, and a second rewrite of that output is
byte-identical: the directive regex re-locates the emitted replacement
(consuming the visible content through its anchor) and `mkRepl` reproduces
exactly the same replacement.  The spec's idempotence claim holds on such
documents, though not universally (see the counterexample). -/
theorem C2_amended_idempotent (ctx : MdCtx) (s0 s1 : Str) (e : Entry)
    (bang : Str) (i : Char) (inn : Str) (c0 : Char) (ch0 : Str) (u0 : Char)
    (url' : Str)
    (hemb : ctx.embed = false)
    (hurl0 : e.url = u0 :: url')
    (hlook : lookupC ctx.cache (resolveP (dirnameP ctx.mdPath) (c0 :: ch0)) =
      some (.done e))
    (hs0 : ∀ c ∈ s0, plainChar c = true)
    (hs1 : ∀ c ∈ s1, plainChar c = true)
    (hbang : bang = [] ∨ bang = ['!'])
    (hin : ∀ c ∈ i :: inn, plainChar c = true ∧ jsDot c = true)
    (hurl : ∀ c ∈ u0 :: url', plainChar c = true ∧ jsDot c = true)
    (hpc : ∀ c ∈ c0 :: ch0, plainChar c = true ∧ jsDot c = true)
    (hp6 : 6 ≤ (c0 :: ch0).length)
    (hps : (c0 :: ch0).drop ((c0 :: ch0).length - 5) = pumlSuffix) :
    ∃ out : Str,
      rewriteMd ctx (s0 ++ (coreDirective bang (i :: inn) (c0 :: ch0) ++ s1)) =
        .ok out ∧
      rewriteMd ctx out = .ok out := by
  have hinCE : ∀ c ∈ i :: inn, c ≠ ']' ∧ jsDot c = true :=
    fun c h => ⟨(plainChar_spec (hin c h).1).2.1, (hin c h).2⟩
  have hurlCE : ∀ c ∈ u0 :: url', c ≠ ')' ∧ c ≠ ']' ∧ jsDot c = true :=
    fun c h => ⟨(plainChar_spec (hurl c h).1).2.2.2.1,
      (plainChar_spec (hurl c h).1).2.1, (hurl c h).2⟩
  have hpcCE : ∀ c ∈ c0 :: ch0, c ≠ ')' ∧ c ≠ ']' ∧ jsDot c = true :=
    fun c h => ⟨(plainChar_spec (hpc c h).1).2.2.2.1,
      (plainChar_spec (hpc c h).1).2.1, (hpc c h).2⟩
  have hs1R : ∀ c ∈ s1, c ≠ ']' := fun c h => (plainChar_spec (hs1 c h)).2.1
  have hs0BR : ∀ c ∈ s0, c ≠ '[' ∧ c ≠ '<' :=
    fun c h => ⟨(plainChar_spec (hs0 c h)).1, (plainChar_spec (hs0 c h)).2.2.2.2.1⟩
  have hs1scan : mdScan ctx s1 = .ok s1 :=
    mdScan_plain ctx
      (fun c h => ⟨(plainChar_spec (hs1 c h)).1, (plainChar_spec (hs1 c h)).2.2.2.2.1⟩)
  have hs0T : ∀ c ∈ s0, c ≠ '\x60' := fun c h => (plainChar_spec (hs0 c h)).2.2.2.2.2.2
  have hs1T : ∀ c ∈ s1, c ≠ '\x60' := fun c h => (plainChar_spec (hs1 c h)).2.2.2.2.2.2
  have hinT : ∀ c ∈ i :: inn, c ≠ '\x60' :=
    fun c h => (plainChar_spec (hin c h).1).2.2.2.2.2.2
  have hpcT : ∀ c ∈ c0 :: ch0, c ≠ '\x60' :=
    fun c h => (plainChar_spec (hpc c h).1).2.2.2.2.2.2
  have hurlT : ∀ c ∈ u0 :: url', c ≠ '\x60' :=
    fun c h => (plainChar_spec (hurl c h).1).2.2.2.2.2.2
  have hcoreT : ∀ c ∈ coreDirective bang (i :: inn) (c0 :: ch0), c ≠ '\x60' :=
    coreDirective_no_tick hbang hinT hpcT
  have hDT : ∀ c ∈ s0 ++ (coreDirective bang (i :: inn) (c0 :: ch0) ++ s1),
      c ≠ '\x60' :=
    forall_mem_append hs0T (forall_mem_append hcoreT hs1T)
  have hltT : ∀ c ∈ ('[' :: ((i :: inn) ++ [']'])), c ≠ '\x60' := by
    intro c hc
    rcases List.mem_cons.mp hc with rfl | hc
    · decide
    rcases List.mem_append.mp hc with hc | hc
    · exact hinT c hc
    · rcases List.mem_cons.mp hc with rfl | hc
      · decide
      · simp at hc
  rcases hbang with rfl | rfl
  · -- hyperlink directive
    have hanch_eq : coreDirective [] (i :: inn) (c0 :: ch0) =
        anchorOf ('[' :: ((i :: inn) ++ [']'])) (c0 :: ch0) := by
      have h := coreDirective_eq_anchor [] (i :: inn) (c0 :: ch0)
      simpa using h
    have hrepl2 : mkRepl ctx ('[' :: ((i :: inn) ++ [']'])) (c0 :: ch0) =
        .ok (('[' :: ((i :: inn) ++ [']'])) ++ '(' :: ((u0 :: url') ++ [')']) ++
          anchorOf ('[' :: ((i :: inn) ++ [']'])) (c0 :: ch0)) := by
      unfold mkRepl
      simp only [hlook]
      rw [if_neg (by simp), hurl0]
    have hrepl1 : mkRepl ctx ([] ++ '[' :: ((i :: inn) ++ [']'])) (c0 :: ch0) =
        .ok (('[' :: ((i :: inn) ++ [']'])) ++ '(' :: ((u0 :: url') ++ [')']) ++
          anchorOf ('[' :: ((i :: inn) ++ [']'])) (c0 :: ch0)) := by
      simp only [List.nil_append]
      exact hrepl2
    have hRT : ∀ c ∈ (('[' :: ((i :: inn) ++ [']'])) ++ '(' :: ((u0 :: url') ++ [')']) ++
        anchorOf ('[' :: ((i :: inn) ++ [']'])) (c0 :: ch0)), c ≠ '\x60' := by
      intro c hc
      rcases List.mem_append.mp hc with hc | hc
      · rcases List.mem_append.mp hc with hc | hc
        · exact hltT c hc
        · rcases List.mem_cons.mp hc with rfl | hc
          · decide
          rcases List.mem_append.mp hc with hc | hc
          · exact hurlT c hc
          · rcases List.mem_cons.mp hc with rfl | hc
            · decide
            · simp at hc
      · refine hcoreT c ?_
        rw [hanch_eq]
        exact hc
    have houtT : ∀ c ∈ s0 ++ ((('[' :: ((i :: inn) ++ [']'])) ++
        '(' :: ((u0 :: url') ++ [')']) ++
        anchorOf ('[' :: ((i :: inn) ++ [']'])) (c0 :: ch0)) ++ s1), c ≠ '\x60' :=
      forall_mem_append hs0T (forall_mem_append hRT hs1T)
    have hscan2 : mdScan ctx ((('[' :: ((i :: inn) ++ [']'])) ++
        '(' :: ((u0 :: url') ++ [')']) ++
        anchorOf ('[' :: ((i :: inn) ++ [']'])) (c0 :: ch0)) ++ s1) =
        .ok ((('[' :: ((i :: inn) ++ [']'])) ++ '(' :: ((u0 :: url') ++ [')']) ++
          anchorOf ('[' :: ((i :: inn) ++ [']'])) (c0 :: ch0)) ++ s1) :=
      mdScan_at ctx (by simp)
        (fun f => matchFull_at_replLink f i inn u0 url' c0 ch0 s1
          hinCE hurlCE hpcCE hp6 hps hs1R)
        hrepl2 hs1scan
    refine ⟨s0 ++ ((('[' :: ((i :: inn) ++ [']'])) ++ '(' :: ((u0 :: url') ++ [')']) ++
      anchorOf ('[' :: ((i :: inn) ++ [']'])) (c0 :: ch0)) ++ s1), ?_, ?_⟩
    · rw [rewriteMd_no_tick ctx hDT]
      rw [mdScan_single ctx s0 [] i inn c0 ch0 s1 hs0BR (Or.inl rfl)
        (fun c h => (hinCE c h).1) (fun c h => (hpcCE c h).1) hp6 hps,
        hrepl1, hs1scan]
    · rw [rewriteMd_no_tick ctx houtT]
      rw [mdScan_append_plain ctx _ hs0BR, hscan2]
  · -- image directive
    have hanch_eq : coreDirective ['!'] (i :: inn) (c0 :: ch0) =
        anchorOf ('!' :: ('[' :: ((i :: inn) ++ [']']))) (c0 :: ch0) := by
      have h := coreDirective_eq_anchor ['!'] (i :: inn) (c0 :: ch0)
      simpa using h
    have hlt2T : ∀ c ∈ ('!' :: ('[' :: ((i :: inn) ++ [']']))), c ≠ '\x60' := by
      intro c hc
      rcases List.mem_cons.mp hc with rfl | hc
      · decide
      · exact hltT c hc
    have hrepl2 : mkRepl ctx ('!' :: ('[' :: ((i :: inn) ++ [']']))) (c0 :: ch0) =
        .ok (('[' :: (('!' :: ('[' :: ((i :: inn) ++ [']']))) ++ '(' :: ((u0 :: url') ++
          ")](".toList ++ (u0 :: url') ++ [')']))) ++
          anchorOf ('!' :: ('[' :: ((i :: inn) ++ [']']))) (c0 :: ch0)) := by
      unfold mkRepl
      simp only [hlook]
      rw [if_pos (by simp), if_neg (by simp [hemb]), hurl0]
    have hrepl1 : mkRepl ctx (['!'] ++ '[' :: ((i :: inn) ++ [']'])) (c0 :: ch0) =
        .ok (('[' :: (('!' :: ('[' :: ((i :: inn) ++ [']']))) ++ '(' :: ((u0 :: url') ++
          ")](".toList ++ (u0 :: url') ++ [')']))) ++
          anchorOf ('!' :: ('[' :: ((i :: inn) ++ [']']))) (c0 :: ch0)) := by
      simp only [List.cons_append, List.nil_append]
      exact hrepl2
    have hRT : ∀ c ∈ (('[' :: (('!' :: ('[' :: ((i :: inn) ++ [']']))) ++
        '(' :: ((u0 :: url') ++ ")](".toList ++ (u0 :: url') ++ [')']))) ++
        anchorOf ('!' :: ('[' :: ((i :: inn) ++ [']']))) (c0 :: ch0)), c ≠ '\x60' := by
      intro c hc
      rcases List.mem_append.mp hc with hc | hc
      · rcases List.mem_cons.mp hc with rfl | hc
        · decide
        rcases List.mem_append.mp hc with hc | hc
        · exact hlt2T c hc
        rcases List.mem_cons.mp hc with rfl | hc
        · decide
        rcases List.mem_append.mp hc with hc | hc
        · rcases List.mem_append.mp hc with hc | hc
          · rcases List.mem_append.mp hc with hc | hc
            · exact hurlT c hc
            · rw [show (")](".toList) = [')', ']', '('] from rfl] at hc
              simp at hc
              rcases hc with rfl | rfl | rfl
              · decide
              · decide
              · decide
          · exact hurlT c hc
        · rcases List.mem_cons.mp hc with rfl | hc
          · decide
          · simp at hc
      · refine hcoreT c ?_
        rw [hanch_eq]
        exact hc
    have houtT : ∀ c ∈ s0 ++ ((('[' :: (('!' :: ('[' :: ((i :: inn) ++ [']']))) ++
        '(' :: ((u0 :: url') ++ ")](".toList ++ (u0 :: url') ++ [')']))) ++
        anchorOf ('!' :: ('[' :: ((i :: inn) ++ [']']))) (c0 :: ch0)) ++ s1),
        c ≠ '\x60' :=
      forall_mem_append hs0T (forall_mem_append hRT hs1T)
    have hscan2 : mdScan ctx ((('[' :: (('!' :: ('[' :: ((i :: inn) ++ [']']))) ++
        '(' :: ((u0 :: url') ++ ")](".toList ++ (u0 :: url') ++ [')']))) ++
        anchorOf ('!' :: ('[' :: ((i :: inn) ++ [']']))) (c0 :: ch0)) ++ s1) =
        .ok ((('[' :: (('!' :: ('[' :: ((i :: inn) ++ [']']))) ++
          '(' :: ((u0 :: url') ++ ")](".toList ++ (u0 :: url') ++ [')']))) ++
          anchorOf ('!' :: ('[' :: ((i :: inn) ++ [']']))) (c0 :: ch0)) ++ s1) :=
      mdScan_at ctx (by simp)
        (fun f => matchFull_at_replImg f i inn u0 url' c0 ch0 s1
          hinCE hurlCE hpcCE hp6 hps hs1R)
        hrepl2 hs1scan
    refine ⟨s0 ++ ((('[' :: (('!' :: ('[' :: ((i :: inn) ++ [']']))) ++
      '(' :: ((u0 :: url') ++ ")](".toList ++ (u0 :: url') ++ [')']))) ++
      anchorOf ('!' :: ('[' :: ((i :: inn) ++ [']']))) (c0 :: ch0)) ++ s1), ?_, ?_⟩
    · rw [rewriteMd_no_tick ctx hDT]
      rw [mdScan_single ctx s0 ['!'] i inn c0 ch0 s1 hs0BR (Or.inr rfl)
        (fun c h => (hinCE c h).1) (fun c h => (hpcCE c h).1) hp6 hps,
        hrepl1, hs1scan]
    · rw [rewriteMd_no_tick ctx houtT]
      rw [mdScan_append_plain ctx _ hs0BR, hscan2]

/-- Witness for the amended C2 at a concrete document (hyperlink form). -/
theorem C2_amended_idempotent_witness :
    ∃ out : Str,
      rewriteMd c2ctx
        ("p ".toList ++ (coreDirective [] ['t'] ("./a.puml".toList) ++ " q".toList)) =
        .ok out ∧
      rewriteMd c2ctx out = .ok out :=
  C2_amended_idempotent c2ctx ("p ".toList) (" q".toList) c2entry [] 't' []
    '.' ("/a.puml".toList) 'U' [] rfl rfl rfl
    (by decide) (by decide) (Or.inl rfl) (by decide) (by decide) (by decide)
    (by decide) (by decide)

/-- The marker scan of the empty file. -/
theorem scanMarkers_nil : scanMarkers ([] : Str) = [] := by
  rw [scanMarkers]

/-- One marker-scan step at a match. -/
theorem scanMarkers_cons_some {c : Char} {t full inner r : Str}
    {l : List (Str × Str)}
    (h : linkMatchAt (c :: t) = some (full, inner, r))
    (hrest : scanMarkers r = l) :
    scanMarkers (c :: t) = (full, inner) :: l := by
  rw [scanMarkers]
  split
  · rename_i full1 inner1 r1 hm
    have hinj := h.symm.trans hm
    simp only [Option.some.injEq, Prod.mk.injEq] at hinj
    obtain ⟨h1, h2, h3⟩ := hinj
    subst h1
    subst h2
    subst h3
    rw [hrest]
  · rename_i hm
    rw [h] at hm
    exact absurd hm (by simp)

/-- Concrete render services for the resolver witnesses. -/
def c1cfg : RenderCfg := { enc := fun d => d, mkUrl := fun d => 'U' :: d }

/-- Concrete resolved entry for the C1 witness. -/
def c1e : Entry := { encodedData := "E".toList, url := "U".toList, data := "D".toList }

/-- Concrete resolver state with one resolved diagram. -/
def c1st : RState :=
  { cache := [("/p/a.puml".toList, .done c1e)], reads := [], renders := [] }

/-- Empty filesystem for the C1 and C8 witnesses. -/
def c1fs : Str → Option Str := fun _ => none

/-- Witness for C1 at a concrete resolved diagram: the cache holds the entry,
a repeat call at any fuel returns it with the state untouched, and the slot
survives an unrelated resolver call. -/
theorem C1_memoization_witness :
    lookupC c1st.cache ("/p/a.puml".toList) = some (.done c1e)
    ∧ processPumlFile c1cfg c1fs 3 ("/p/a.puml".toList) c1st = (.done c1e, c1st)
    ∧ lookupC (processPumlFile c1cfg c1fs 5 ("/x".toList) c1st).2.cache
        ("/p/a.puml".toList) = some (.done c1e) :=
  ⟨(C1_memoization c1cfg c1fs 1 ("/p/a.puml".toList) c1st c1e c1st rfl).1,
   (C1_memoization c1cfg c1fs 1 ("/p/a.puml".toList) c1st c1e c1st rfl).2.1 2,
   (C1_memoization c1cfg c1fs 1 ("/p/a.puml".toList) c1st c1e c1st rfl).2.2 5
     ("/x".toList) c1st rfl⟩

/-- Bad-request and fatal remote errors for the C5 witness. -/
def c5e400 : RemoteErr :=
  { statusCode := 400, message := "Bad Request".toList, body := "nope".toList }

/-- A non-400 remote error for the C5 witness. -/
def c5e500 : RemoteErr :=
  { statusCode := 500, message := "ISE".toList, body := "x".toList }

/-- Witness for the amended C5 at concrete failures: the 400 branch writes
the body with no log line; the 500 branch throws after warning and logging. -/
theorem C5_amended_bad_request_witness :
    downloadImg ("S".toList) ("/i".toList) ("/o".toList) (.error c5e400)
        (fun _ => none) =
      (.ok (fun q => if q = ("/o".toList) then some c5e400.body else none), [])
    ∧ downloadImg ("S".toList) ("/i".toList) ("/o".toList) (.error c5e500)
        (fun _ => none) =
      (.error c5e500,
        [warnMsg ("S".toList) ("/i".toList) ("/o".toList), errLogMsg c5e500.message]) :=
  ⟨(C5_amended_bad_request ("S".toList) ("/i".toList) ("/o".toList) c5e400
      (fun _ => none)).1 rfl,
   (C5_amended_bad_request ("S".toList) ("/i".toList) ("/o".toList) c5e500
      (fun _ => none)).2 (by decide)⟩

/-- Witness for C8 at a concrete unregistered path: the path comes back
unchanged and the state is untouched. -/
theorem C8_unregistered_witness :
    processPumlFile c1cfg c1fs 1 ("/ext/other".toList) c1st =
      (.path ("/ext/other".toList), c1st) :=
  C8_unregistered c1cfg c1fs 0 ("/ext/other".toList) c1st rfl

/-- Filesystem for the C9 witness: the diagram consists of one marker whose
target is not registered. -/
def c9fs : Str → Option Str :=
  fun q => if q = "/p/m.puml".toList then some ("$link=\"q\"".toList) else none

/-- Pending resolver state for the C9 witness. -/
def c9st : RState :=
  { cache := [("/p/m.puml".toList, .pending)], reads := [], renders := [] }

/-- Witness for C9 at a concrete diagram: the dangling marker is replaced by
the literal undefined link in the resolved entry. -/
theorem C9_unregistered_link_target_witness :
    (processPumlFile c1cfg c9fs 2 ("/p/m.puml".toList) c9st).1 =
      .done (mkEntry c1cfg (processIncludes c9fs ("/p/m.puml".toList)
        (replaceAll ("$link=\"q\"".toList) ("$link=\"q\"".toList)
          (linkRepl ("undefined".toList))))) := by
  have h1 : scanMarkers ("$link=\"q\"".toList) =
      [("$link=\"q\"".toList, "q".toList)] :=
    @scanMarkers_cons_some '$' ("link=\"q\"".toList) ("$link=\"q\"".toList)
      ("q".toList) [] [] rfl scanMarkers_nil
  exact C9_unregistered_link_target c1cfg c9fs 0 ("/p/m.puml".toList) c9st
    ("$link=\"q\"".toList) ("$link=\"q\"".toList) ("q".toList) rfl rfl
    (by rw [h1]
        rfl) rfl

end Puml
